import Mathlib

/-!
Shallow embedding of the sliding-window extremum trackers of `ta-rs`
(`src/indicators/maximum.rs`, `src/indicators/minimum.rs`, `src/errors.rs`),
together with correctness theorems about them.

Floating-point samples (`f64`) are modelled by the type `F`: a rational
magnitude, the two infinities, or NaN.  The IEEE-754 strict comparisons
`>` and `<` used by the source are modelled by `F.fgt` / `F.flt`; every
comparison involving NaN is false, matching IEEE semantics.
-/

/-- Error enum of `src/errors.rs`. -/
inductive TaError where
  | InvalidParameter
  | DataItemIncomplete
  | DataItemInvalid
deriving DecidableEq

/-- Model of an `f64` value: NaN, the infinities, or a finite magnitude. -/
inductive F where
  | nan : F
  | neg_inf : F
  | pos_inf : F
  | finite : ℚ → F
deriving DecidableEq

/-- Whether the value is NaN. -/
def F.isNan : F → Bool
  | F.nan => true
  | _ => false

/-- IEEE-754 strict `>` on the float model: false whenever either side is NaN. -/
def F.fgt : F → F → Bool
  | F.nan, _ => false
  | _, F.nan => false
  | F.pos_inf, F.pos_inf => false
  | F.pos_inf, F.neg_inf => true
  | F.pos_inf, F.finite _ => true
  | F.finite _, F.pos_inf => false
  | F.finite a, F.finite b => decide (b < a)
  | F.finite _, F.neg_inf => true
  | F.neg_inf, _ => false

/-- IEEE-754 strict `<` on the float model: `a < b` iff `b > a`. -/
def F.flt (a b : F) : Bool := F.fgt b a

/-- Negation on the float model (NaN stays NaN, infinities swap). -/
def F.neg : F → F
  | F.nan => F.nan
  | F.neg_inf => F.pos_inf
  | F.pos_inf => F.neg_inf
  | F.finite q => F.finite (-q)

/-- State of the `Maximum` tracker (`src/indicators/maximum.rs`): a fixed
period, the index believed to hold the maximum, the write cursor, and the
circular buffer (`deque` in the source). -/
@[ext] structure Maximum where
  period : ℕ
  max_index : ℕ
  cur_index : ℕ
  deque : List F
deriving DecidableEq

/-- State of the `Minimum` tracker (`src/indicators/minimum.rs`). -/
@[ext] structure Minimum where
  period : ℕ
  min_index : ℕ
  cur_index : ℕ
  deque : List F
deriving DecidableEq

/-- `Maximum::new`: rejects `period == 0`, otherwise builds the tracker with
both indices 0 and the buffer filled with `f64::NEG_INFINITY`. -/
def Maximum.new (period : ℕ) : Except TaError Maximum :=
  match period with
  | 0 => Except.error TaError.InvalidParameter
  | _ => Except.ok { period := period, max_index := 0, cur_index := 0,
                     deque := List.replicate period F.neg_inf }

/-- `Minimum::new`: rejects `period == 0`, otherwise builds the tracker with
both indices 0 and the buffer filled with `f64::INFINITY`. -/
def Minimum.new (period : ℕ) : Except TaError Minimum :=
  match period with
  | 0 => Except.error TaError.InvalidParameter
  | _ => Except.ok { period := period, min_index := 0, cur_index := 0,
                     deque := List.replicate period F.pos_inf }

/-- Loop body of `Maximum::find_max_index`: walks the buffer with the running
best value `mx` (initially `NEG_INFINITY`) and its index, updating both on a
strict `>` win; `i` is the position of the head of `l` in the buffer. -/
def findMaxAux : List F → ℕ → F → ℕ → F × ℕ
  | [], _, mx, index => (mx, index)
  | val :: rest, i, mx, index =>
    if F.fgt val mx then findMaxAux rest (i + 1) val i
    else findMaxAux rest (i + 1) mx index

/-- `Maximum::find_max_index`: full rescan of the buffer. -/
def Maximum.find_max_index (s : Maximum) : ℕ :=
  (findMaxAux s.deque 0 F.neg_inf 0).2

/-- Loop body of `Minimum::find_min_index`, mirrored with strict `<` and
initial best `INFINITY`. -/
def findMinAux : List F → ℕ → F → ℕ → F × ℕ
  | [], _, mn, index => (mn, index)
  | val :: rest, i, mn, index =>
    if F.flt val mn then findMinAux rest (i + 1) val i
    else findMinAux rest (i + 1) mn index

/-- `Minimum::find_min_index`: full rescan of the buffer. -/
def Minimum.find_min_index (s : Minimum) : ℕ :=
  (findMinAux s.deque 0 F.pos_inf 0).2

/-- First statement of `Maximum::next`: `self.deque[self.cur_index] = input`. -/
def Maximum.step1 (s : Maximum) (input : F) : Maximum :=
  { s with deque := s.deque.set s.cur_index input }

/-- Second statement of `Maximum::next`: the branch updating `max_index`
(compare against the buffer content after the write). -/
def Maximum.step2 (s : Maximum) (input : F) : Maximum :=
  if F.fgt input (s.deque.getD s.max_index F.nan) then
    { s with max_index := s.cur_index }
  else if s.max_index == s.cur_index then
    { s with max_index := s.find_max_index }
  else s

/-- Third statement of `Maximum::next`: circular advance of `cur_index`. -/
def Maximum.step3 (s : Maximum) : Maximum :=
  { s with cur_index := if s.cur_index + 1 < s.period then s.cur_index + 1 else 0 }

/-- `Next::<f64>::next` for `Maximum`: write, maintain `max_index`, advance the
cursor, and return `self.deque[self.max_index]`. -/
def Maximum.next (s : Maximum) (input : F) : Maximum × F :=
  let t := ((s.step1 input).step2 input).step3
  (t, t.deque.getD t.max_index F.nan)

/-- `Next::<f64>::next` for `Minimum`, mirrored. -/
def Minimum.step1 (s : Minimum) (input : F) : Minimum :=
  { s with deque := s.deque.set s.cur_index input }

/-- Branch of `Minimum::next` updating `min_index`. -/
def Minimum.step2 (s : Minimum) (input : F) : Minimum :=
  if F.flt input (s.deque.getD s.min_index F.nan) then
    { s with min_index := s.cur_index }
  else if s.min_index == s.cur_index then
    { s with min_index := s.find_min_index }
  else s

/-- Circular cursor advance of `Minimum::next`. -/
def Minimum.step3 (s : Minimum) : Minimum :=
  { s with cur_index := if s.cur_index + 1 < s.period then s.cur_index + 1 else 0 }

/-- `Next::<f64>::next` for `Minimum`. -/
def Minimum.next (s : Minimum) (input : F) : Minimum × F :=
  let t := ((s.step1 input).step2 input).step3
  (t, t.deque.getD t.min_index F.nan)

/-- `Reset::reset` for `Maximum`: `for i in 0..period { deque[i] = NEG_INFINITY }`.
Only the buffer is touched; the two indices are left as they are. -/
def Maximum.reset (s : Maximum) : Maximum :=
  { s with deque := (List.range s.period).foldl (fun d i => d.set i F.neg_inf) s.deque }

/-- `Reset::reset` for `Minimum`: refills the buffer with `INFINITY`. -/
def Minimum.reset (s : Minimum) : Minimum :=
  { s with deque := (List.range s.period).foldl (fun d i => d.set i F.pos_inf) s.deque }

/-- Feed a list of samples one at a time, collecting the returned extrema. -/
def Maximum.run (s : Maximum) : List F → List F
  | [] => []
  | x :: rest =>
    let r := s.next x
    r.2 :: r.1.run rest

/-- Feed a list of samples one at a time, collecting the returned extrema. -/
def Minimum.run (s : Minimum) : List F → List F
  | [] => []
  | x :: rest =>
    let r := s.next x
    r.2 :: r.1.run rest

/-- View a `Minimum` state as a `Maximum` state with the buffer negated
(used to transport theorems between the two mirrored polarities). -/
def mToMax (s : Minimum) : Maximum :=
  { period := s.period, max_index := s.min_index, cur_index := s.cur_index,
    deque := s.deque.map F.neg }

/-- Binary maximum under the IEEE strict comparison, keeping the left argument
on a tie or an incomparable (NaN) pair; folding it is exactly a forward rescan. -/
def fmax (a b : F) : F := if F.fgt b a then b else a

/-- Binary minimum under the IEEE strict comparison. -/
def fmin (a b : F) : F := if F.flt b a then b else a

/-- Specification-side full rescan for the maximum, mirroring the loop of
`find_max_index`: fold from `NEG_INFINITY`, strict improvement wins. -/
def rescanMax (l : List F) : F := l.foldl fmax F.neg_inf

/-- Specification-side full rescan for the minimum. -/
def rescanMin (l : List F) : F := l.foldl fmin F.pos_inf

/-- Last `n` elements of a list (all of it when `n` exceeds the length). -/
def lastN (n : ℕ) (l : List F) : List F := l.drop (l.length - n)

/-- Rotation of the buffer: the circular buffer whose slot `c` holds the head
of `v` (the oldest logical entry), slot `c + 1` the next, wrapping around. -/
def rot (v : List F) (c : ℕ) : List F :=
  v.drop (v.length - c) ++ v.take (v.length - c)

/-- Structural well-formedness of a `Maximum` state: positive period, buffer of
exactly `period` slots, both indices in range. -/
def SInvM (s : Maximum) : Prop :=
  1 ≤ s.period ∧ s.deque.length = s.period ∧
  s.cur_index < s.period ∧ s.max_index < s.period

/-- Structural well-formedness of a `Minimum` state. -/
def SInvm (s : Minimum) : Prop :=
  1 ≤ s.period ∧ s.deque.length = s.period ∧
  s.cur_index < s.period ∧ s.min_index < s.period

/-- Coupling invariant for window correctness: the state of a `Maximum`
tracker whose logical window (most recent samples, oldest first) is `w`.
The buffer is the rotation, by the cursor, of sentinel padding followed by
`w`, and the tracked slot is an upper bound of the whole buffer. -/
def InvM (p : ℕ) (s : Maximum) (w : List F) : Prop :=
  s.period = p ∧ 1 ≤ p ∧ w.length ≤ p ∧
  s.cur_index < p ∧ s.max_index < p ∧
  s.deque = rot (List.replicate (p - w.length) F.neg_inf ++ w) s.cur_index ∧
  ∀ x ∈ s.deque, F.fgt x (s.deque.getD s.max_index F.nan) = false

/-- The logical window after one more sample `x`: append while filling,
evict the oldest once full. -/
def nextWin (p : ℕ) (w : List F) (x : F) : List F :=
  if w.length < p then w ++ [x] else w.tail ++ [x]

/-- Reference stream of outputs for the maximum tracker: at every step the
output is a full rescan of the logical window. -/
def specRunMax (p : ℕ) (w : List F) : List F → List F
  | [] => []
  | x :: rest => rescanMax (nextWin p w x) :: specRunMax p (nextWin p w x) rest

/-- Reference stream of outputs for the minimum tracker. -/
def specRunMin (p : ℕ) (w : List F) : List F → List F
  | [] => []
  | x :: rest => rescanMin (nextWin p w x) :: specRunMin p (nextWin p w x) rest

/-- The window observed by the `k`-th output (0-indexed): the last
`min (k + 1) p` of the first `k + 1` samples. -/
def winAt (p : ℕ) (xs : List F) (k : ℕ) : List F :=
  lastN (min (k + 1) p) (xs.take (k + 1))

/-- `m` is the maximum of buffer contents `l`: a non-NaN element no element
strictly exceeds. -/
def isBufferMax (l : List F) (m : F) : Prop :=
  m ∈ l ∧ m.isNan = false ∧ ∀ x ∈ l, F.fgt x m = false

/-- `m` is the minimum of buffer contents `l`. -/
def isBufferMin (l : List F) (m : F) : Prop :=
  m ∈ l ∧ m.isNan = false ∧ ∀ x ∈ l, F.flt x m = false

/-! ### Order facts about the IEEE comparison model -/

theorem F.fgt_nan_left (a : F) : F.fgt F.nan a = false := by cases a <;> rfl

theorem F.fgt_nan_right (a : F) : F.fgt a F.nan = false := by cases a <;> rfl

theorem F.fgt_irrefl (a : F) : F.fgt a a = false := by
  cases a <;> simp [F.fgt]

theorem F.fgt_neg_inf_left (a : F) : F.fgt F.neg_inf a = false := by cases a <;> rfl

theorem F.nan_of_fgt_left {a b : F} (h : F.fgt a b = true) : a.isNan = false := by
  cases a <;> cases b <;> simp_all [F.fgt, F.isNan]

theorem F.nan_of_fgt_right {a b : F} (h : F.fgt a b = true) : b.isNan = false := by
  cases a <;> cases b <;> simp_all [F.fgt, F.isNan]

theorem F.fgt_trans {a b c : F} (h1 : F.fgt a b = true) (h2 : F.fgt b c = true) :
    F.fgt a c = true := by
  cases a <;> cases b <;> cases c <;> simp_all [F.fgt] <;> exact lt_trans ‹_› ‹_›

theorem F.not_fgt_trans {a b c : F} (hb : b.isNan = false)
    (h1 : F.fgt a b = false) (h2 : F.fgt b c = false) : F.fgt a c = false := by
  cases a <;> cases b <;> cases c <;> simp_all [F.fgt, F.isNan, not_lt] <;>
    exact le_trans ‹_› ‹_›

theorem F.eq_of_not_fgt_of_not_fgt {a b : F} (ha : a.isNan = false) (hb : b.isNan = false)
    (h1 : F.fgt a b = false) (h2 : F.fgt b a = false) : a = b := by
  cases a <;> cases b <;> simp_all [F.fgt, F.isNan, not_lt] <;>
    exact le_antisymm ‹_› ‹_›

theorem F.fgt_of_fgt_of_not_fgt {a b c : F} (hc : c.isNan = false)
    (h1 : F.fgt a b = true) (h2 : F.fgt c b = false) : F.fgt a c = true := by
  cases a <;> cases b <;> cases c <;> simp_all [F.fgt, F.isNan, not_lt] <;>
    exact lt_of_le_of_lt ‹_› ‹_›

theorem F.not_fgt_neg_inf_iff {a : F} :
    F.fgt a F.neg_inf = false ↔ a = F.neg_inf ∨ a = F.nan := by
  cases a <;> simp [F.fgt]

/-! ### Small list helper lemmas -/

theorem getD_set_self : ∀ (l : List F) (n : ℕ) (x d : F), n < l.length →
    (l.set n x).getD n d = x
  | [], n, _, _, h => absurd h (Nat.not_lt_zero n)
  | _ :: _, 0, _, _, _ => rfl
  | _ :: l, n + 1, x, d, h => getD_set_self l n x d (Nat.lt_of_succ_lt_succ h)

theorem getD_set_ne : ∀ (l : List F) (n m : ℕ) (x d : F), m ≠ n →
    (l.set n x).getD m d = l.getD m d
  | [], _, _, _, _, _ => rfl
  | _ :: _, 0, 0, _, _, h => absurd rfl h
  | _ :: _, 0, _ + 1, _, _, _ => rfl
  | _ :: _, _ + 1, 0, _, _, _ => rfl
  | _ :: l, n + 1, m + 1, x, d, h =>
    getD_set_ne l n m x d (fun hmn => h (congrArg Nat.succ hmn))

theorem getD_mem : ∀ (l : List F) (n : ℕ) (d : F), n < l.length → l.getD n d ∈ l
  | [], n, _, h => absurd h (Nat.not_lt_zero n)
  | a :: _, 0, _, _ => List.mem_cons_self a _
  | _ :: l, n + 1, d, h =>
    List.mem_cons_of_mem _ (getD_mem l n d (Nat.lt_of_succ_lt_succ h))

/-! ### The fold that underlies the rescan -/

theorem fmax_mem_pair (a y : F) : fmax a y = a ∨ fmax a y = y := by
  unfold fmax; split
  · exact Or.inr rfl
  · exact Or.inl rfl

theorem foldl_fmax_mem (l : List F) : ∀ a : F, l.foldl fmax a ∈ a :: l := by
  induction l with
  | nil => intro a; exact List.mem_cons_self a []
  | cons y t ih =>
    intro a
    have h := ih (fmax a y)
    simp only [List.foldl_cons]
    rcases List.mem_cons.1 h with h1 | h1
    · rcases fmax_mem_pair a y with h2 | h2
      · rw [h1, h2]; exact List.mem_cons_self a (y :: t)
      · rw [h1, h2]; exact List.mem_cons_of_mem a (List.mem_cons_self y t)
    · exact List.mem_cons_of_mem a (List.mem_cons_of_mem y h1)

theorem foldl_fmax_spec (l : List F) : ∀ a : F, a.isNan = false →
    (l.foldl fmax a).isNan = false ∧
    F.fgt a (l.foldl fmax a) = false ∧
    ∀ y ∈ l, F.fgt y (l.foldl fmax a) = false := by
  induction l with
  | nil =>
    intro a ha
    exact ⟨ha, F.fgt_irrefl a, by simp⟩
  | cons y t ih =>
    intro a ha
    simp only [List.foldl_cons]
    by_cases hgt : F.fgt y a = true
    · have hy : F.isNan y = false := F.nan_of_fgt_left hgt
      have hfm : fmax a y = y := by simp [fmax, hgt]
      rw [hfm]
      obtain ⟨h1, h2, h3⟩ := ih y hy
      refine ⟨h1, ?_, ?_⟩
      · cases har : F.fgt a (t.foldl fmax y) with
        | false => rfl
        | true => exact absurd (F.fgt_trans hgt har) (by simp [h2])
      · intro z hz
        rcases List.mem_cons.1 hz with h | h
        · rw [h]; exact h2
        · exact h3 z h
    · have hgt' : F.fgt y a = false := by simpa using hgt
      have hfm : fmax a y = a := by simp [fmax, hgt']
      rw [hfm]
      obtain ⟨h1, h2, h3⟩ := ih a ha
      refine ⟨h1, h2, ?_⟩
      intro z hz
      rcases List.mem_cons.1 hz with h | h
      · rw [h]; exact F.not_fgt_trans ha hgt' h2
      · exact h3 z h

theorem findMaxAux_fst (l : List F) : ∀ (i : ℕ) (mx : F) (index : ℕ),
    (findMaxAux l i mx index).1 = l.foldl fmax mx := by
  induction l with
  | nil => intros; rfl
  | cons y t ih =>
    intro i mx index
    simp only [findMaxAux, List.foldl_cons]
    by_cases hgt : F.fgt y mx = true
    · rw [if_pos hgt, ih]
      congr 1
      simp [fmax, hgt]
    · have hgt' : F.fgt y mx = false := by simpa using hgt
      rw [if_neg (by simp [hgt']), ih]
      congr 1
      simp [fmax, hgt']

theorem findMaxAux_pos (l : List F) : ∀ (i : ℕ) (mx : F) (index : ℕ),
    findMaxAux l i mx index = (mx, index) ∨
    ∃ j, j < l.length ∧ l.getD j F.nan = (findMaxAux l i mx index).1 ∧
      (findMaxAux l i mx index).2 = i + j := by
  induction l with
  | nil => intro i mx index; exact Or.inl rfl
  | cons y t ih =>
    intro i mx index
    simp only [findMaxAux]
    by_cases hgt : F.fgt y mx = true
    · rw [if_pos hgt]
      rcases ih (i + 1) y i with h | ⟨j, hj, hval, hidx⟩
      · refine Or.inr ⟨0, by simp, ?_, ?_⟩
        · rw [h]; rfl
        · rw [h]; rfl
      · refine Or.inr ⟨j + 1, by simpa using hj, ?_, ?_⟩
        · simpa using hval
        · rw [hidx]; omega
    · have hgt' : F.fgt y mx = false := by simpa using hgt
      rw [if_neg (by simp [hgt'])]
      rcases ih (i + 1) mx index with h | ⟨j, hj, hval, hidx⟩
      · exact Or.inl h
      · refine Or.inr ⟨j + 1, by simpa using hj, ?_, ?_⟩
        · simpa using hval
        · rw [hidx]; omega

theorem findMaxAux_least (l : List F) : ∀ (i : ℕ) (mx : F) (index : ℕ),
    mx.isNan = false → (∀ y ∈ l, y.isNan = false) →
    ((findMaxAux l i mx index).2 = index ∧ (findMaxAux l i mx index).1 = mx) ∨
    (i ≤ (findMaxAux l i mx index).2 ∧
     (∀ j, i ≤ j → j < (findMaxAux l i mx index).2 →
        F.fgt (findMaxAux l i mx index).1 (l.getD (j - i) F.nan) = true) ∧
     F.fgt (findMaxAux l i mx index).1 mx = true) := by
  induction l with
  | nil => intro i mx index _ _; exact Or.inl ⟨rfl, rfl⟩
  | cons y t ih =>
    intro i mx index hmx hl
    have hy : y.isNan = false := hl y (List.mem_cons_self y t)
    have ht : ∀ z ∈ t, z.isNan = false := fun z hz => hl z (List.mem_cons_of_mem y hz)
    simp only [findMaxAux]
    by_cases hgt : F.fgt y mx = true
    · rw [if_pos hgt]
      rcases ih (i + 1) y i hy ht with ⟨hidx, hval⟩ | ⟨hle, hstrict, hgty⟩
      · refine Or.inr ⟨by omega, ?_, ?_⟩
        · intro j hij hj
          rw [hidx] at hj
          omega
        · rw [hval]; exact hgt
      · refine Or.inr ⟨by omega, ?_, ?_⟩
        · intro j hij hj
          rcases Nat.eq_or_lt_of_le hij with heq | hlt
          · have : j - i = 0 := by omega
            rw [this, List.getD_cons_zero]
            exact F.fgt_of_fgt_of_not_fgt hy hgty (F.fgt_irrefl y)
          · have hji : j - i = (j - (i + 1)) + 1 := by omega
            rw [hji, List.getD_cons_succ]
            exact hstrict j (by omega) hj
        · exact F.fgt_trans hgty hgt
    · have hgt' : F.fgt y mx = false := by simpa using hgt
      rw [if_neg (by simp [hgt'])]
      rcases ih (i + 1) mx index hmx ht with ⟨hidx, hval⟩ | ⟨hle, hstrict, hgtmx⟩
      · exact Or.inl ⟨hidx, hval⟩
      · refine Or.inr ⟨by omega, ?_, ?_⟩
        · intro j hij hj
          rcases Nat.eq_or_lt_of_le hij with heq | hlt
          · have : j - i = 0 := by omega
            rw [this, List.getD_cons_zero]
            exact F.fgt_of_fgt_of_not_fgt hy hgtmx hgt'
          · have hji : j - i = (j - (i + 1)) + 1 := by omega
            rw [hji, List.getD_cons_succ]
            exact hstrict j (by omega) hj
        · exact hgtmx

theorem rescanMax_mem (l : List F) : rescanMax l ∈ F.neg_inf :: l :=
  foldl_fmax_mem l F.neg_inf

theorem rescanMax_ub (l : List F) : ∀ y ∈ l, F.fgt y (rescanMax l) = false :=
  (foldl_fmax_spec l F.neg_inf rfl).2.2

theorem rescanMax_not_nan (l : List F) : (rescanMax l).isNan = false :=
  (foldl_fmax_spec l F.neg_inf rfl).1

theorem bufferMax_unique {l : List F} {m1 m2 : F}
    (h1m : m1 ∈ F.neg_inf :: l) (h2m : m2 ∈ F.neg_inf :: l)
    (h1nan : m1.isNan = false) (h2nan : m2.isNan = false)
    (h1ub : ∀ y ∈ l, F.fgt y m1 = false) (h2ub : ∀ y ∈ l, F.fgt y m2 = false) :
    m1 = m2 := by
  have ha : F.fgt m1 m2 = false := by
    rcases List.mem_cons.1 h1m with h | h
    · rw [h]; exact F.fgt_neg_inf_left m2
    · exact h2ub m1 h
  have hb : F.fgt m2 m1 = false := by
    rcases List.mem_cons.1 h2m with h | h
    · rw [h]; exact F.fgt_neg_inf_left m1
    · exact h1ub m2 h
  exact F.eq_of_not_fgt_of_not_fgt h1nan h2nan ha hb

theorem find_max_index_lt (l : List F) (hl : 0 < l.length) :
    (findMaxAux l 0 F.neg_inf 0).2 < l.length := by
  rcases findMaxAux_pos l 0 F.neg_inf 0 with h | ⟨j, hj, _, hidx⟩
  · rw [h]; exact hl
  · rw [hidx]; omega

theorem find_max_index_ub (l : List F) :
    ∀ y ∈ l, F.fgt y (l.getD (findMaxAux l 0 F.neg_inf 0).2 F.nan) = false := by
  intro y hy
  have hub : ∀ z ∈ l, F.fgt z (findMaxAux l 0 F.neg_inf 0).1 = false := by
    rw [findMaxAux_fst]
    exact (foldl_fmax_spec l F.neg_inf rfl).2.2
  rcases findMaxAux_pos l 0 F.neg_inf 0 with h | ⟨j, hj, hval, hidx⟩
  · have hall : ∀ z ∈ l, z = F.neg_inf ∨ z = F.nan := by
      intro z hz
      have := hub z hz
      rw [h] at this
      exact F.not_fgt_neg_inf_iff.1 this
    rw [h]
    cases l with
    | nil => simp at hy
    | cons h0 t =>
      have hh0 := hall h0 (List.mem_cons_self h0 t)
      have hyc := hall y hy
      rw [List.getD_cons_zero]
      rcases hyc with hy1 | hy1 <;> rcases hh0 with hh1 | hh1 <;>
        rw [hy1, hh1] <;> rfl
  · rw [hidx]
    have : l.getD (0 + j) F.nan = (findMaxAux l 0 F.neg_inf 0).1 := by
      simpa using hval
    rw [this]
    exact hub y hy

/-! ### Rotation view of the circular buffer -/

theorem rot_length (v : List F) (c : ℕ) : (rot v c).length = v.length := by
  unfold rot
  rw [List.length_append, List.length_drop, List.length_take]
  omega

theorem mem_rot {v : List F} {c : ℕ} {y : F} : y ∈ rot v c ↔ y ∈ v := by
  constructor
  · intro h
    rcases List.mem_append.1 h with h | h
    · exact List.drop_subset _ _ h
    · exact List.take_subset _ _ h
  · intro h
    rw [← List.take_append_drop (v.length - c) v] at h
    rcases List.mem_append.1 h with h | h
    · exact List.mem_append.2 (Or.inr h)
    · exact List.mem_append.2 (Or.inl h)

theorem rot_set (v : List F) (c : ℕ) (x : F) (hc : c < v.length) :
    (rot v c).set c x = rot (v.tail ++ [x]) (if c + 1 < v.length then c + 1 else 0) := by
  obtain ⟨h, t, rfl⟩ : ∃ h t, v = h :: t := by
    cases v with
    | nil => simp at hc
    | cons h t => exact ⟨h, t, rfl⟩
  simp only [List.tail_cons]
  have hc' : c ≤ t.length := by
    simp only [List.length_cons] at hc
    omega
  have hm : (h :: t).length - c = (t.length - c) + 1 := by
    simp only [List.length_cons]
    omega
  have hlen_drop : (t.drop (t.length - c)).length = c := by
    simp only [List.length_drop]
    omega
  have lhs_eq : (rot (h :: t) c).set c x
      = t.drop (t.length - c) ++ (x :: t.take (t.length - c)) := by
    unfold rot
    rw [hm, List.drop_succ_cons, List.take_succ_cons]
    rw [List.set_append_right c x (le_of_eq hlen_drop)]
    rw [hlen_drop, Nat.sub_self]
    rfl
  rw [lhs_eq]
  by_cases hlt : c + 1 < (h :: t).length
  · rw [if_pos hlt]
    have hcl : c < t.length := by
      simp only [List.length_cons] at hlt
      omega
    unfold rot
    have hm2 : (t ++ [x]).length - (c + 1) = t.length - c := by
      simp only [List.length_append, List.length_cons, List.length_nil]
      omega
    rw [hm2]
    rw [List.drop_append_of_le_length (by omega), List.take_append_of_le_length (by omega)]
    rw [List.append_assoc]
    rfl
  · rw [if_neg hlt]
    have hce : c = t.length := by
      simp only [List.length_cons] at hlt hc
      omega
    unfold rot
    rw [Nat.sub_zero, List.drop_length, List.take_length, List.nil_append]
    rw [hce, Nat.sub_self]
    simp

/-! ### The reset loop refills the buffer -/

theorem foldl_set_range (a : F) (d : List F) :
    ∀ n, (List.range n).foldl (fun acc i => acc.set i a) d
      = List.replicate (min n d.length) a ++ d.drop n := by
  intro n
  induction n with
  | zero => simp
  | succ n ih =>
    rw [List.range_succ, List.foldl_append]
    simp only [List.foldl_cons, List.foldl_nil]
    rw [ih]
    by_cases hn : n < d.length
    · have hmin : min n d.length = n := by omega
      have hmin2 : min (n + 1) d.length = n + 1 := by omega
      rw [hmin, hmin2]
      have hlenr : (List.replicate n a).length = n := by simp
      rw [List.set_append_right n a (le_of_eq hlenr), hlenr, Nat.sub_self]
      rw [List.drop_eq_getElem_cons (by omega : n < d.length)]
      show List.replicate n a ++ (a :: d.drop (n + 1))
        = List.replicate (n + 1) a ++ d.drop (n + 1)
      rw [List.replicate_succ', List.append_assoc]
      rfl
    · have hge : d.length ≤ n := by omega
      have hlen : (List.replicate (min n d.length) a ++ d.drop n).length ≤ n := by
        simp
        omega
      rw [List.set_eq_of_length_le hlen]
      have h1 : min n d.length = d.length := by omega
      have h2 : min (n + 1) d.length = d.length := by omega
      have h3 : d.drop n = [] := List.drop_eq_nil_of_le hge
      have h4 : d.drop (n + 1) = [] := List.drop_eq_nil_of_le (by omega)
      rw [h1, h2, h3, h4]

theorem maxReset_deque (s : Maximum) (h : s.deque.length = s.period) :
    (s.reset).deque = List.replicate s.period F.neg_inf := by
  show (List.range s.period).foldl (fun d i => d.set i F.neg_inf) s.deque
      = List.replicate s.period F.neg_inf
  rw [foldl_set_range, h, Nat.min_self, List.drop_eq_nil_of_le (le_of_eq h)]
  simp

theorem minReset_deque (s : Minimum) (h : s.deque.length = s.period) :
    (s.reset).deque = List.replicate s.period F.pos_inf := by
  show (List.range s.period).foldl (fun d i => d.set i F.pos_inf) s.deque
      = List.replicate s.period F.pos_inf
  rw [foldl_set_range, h, Nat.min_self, List.drop_eq_nil_of_le (le_of_eq h)]
  simp

theorem maxReset_frame (s : Maximum) :
    (s.reset).period = s.period ∧ (s.reset).cur_index = s.cur_index ∧
    (s.reset).max_index = s.max_index ∧ (s.reset).deque.length = s.deque.length := by
  refine ⟨rfl, rfl, rfl, ?_⟩
  show ((List.range s.period).foldl (fun d i => d.set i F.neg_inf) s.deque).length
      = s.deque.length
  rw [foldl_set_range]
  simp
  omega

theorem minReset_frame (s : Minimum) :
    (s.reset).period = s.period ∧ (s.reset).cur_index = s.cur_index ∧
    (s.reset).min_index = s.min_index ∧ (s.reset).deque.length = s.deque.length := by
  refine ⟨rfl, rfl, rfl, ?_⟩
  show ((List.range s.period).foldl (fun d i => d.set i F.pos_inf) s.deque).length
      = s.deque.length
  rw [foldl_set_range]
  simp
  omega

/-! ### Components of one `next` step -/

theorem next_deque (s : Maximum) (x : F) :
    (s.next x).1.deque = s.deque.set s.cur_index x := by
  simp only [Maximum.next, Maximum.step1, Maximum.step2, Maximum.step3]
  split
  · rfl
  split <;> rfl

theorem next_period (s : Maximum) (x : F) : (s.next x).1.period = s.period := by
  simp only [Maximum.next, Maximum.step1, Maximum.step2, Maximum.step3]
  split
  · rfl
  split <;> rfl

theorem next_cur (s : Maximum) (x : F) :
    (s.next x).1.cur_index = if s.cur_index + 1 < s.period then s.cur_index + 1 else 0 := by
  simp only [Maximum.next, Maximum.step1, Maximum.step2, Maximum.step3]
  split
  · rfl
  split <;> rfl

theorem next_max_index (s : Maximum) (x : F) :
    (s.next x).1.max_index =
      if F.fgt x ((s.deque.set s.cur_index x).getD s.max_index F.nan) = true then
        s.cur_index
      else if s.max_index = s.cur_index then
        (findMaxAux (s.deque.set s.cur_index x) 0 F.neg_inf 0).2
      else s.max_index := by
  simp only [Maximum.next, Maximum.step1, Maximum.step2, Maximum.step3,
    Maximum.find_max_index, beq_iff_eq]
  split
  · rfl
  split <;> rfl

theorem next_out (s : Maximum) (x : F) :
    (s.next x).2 = (s.next x).1.deque.getD (s.next x).1.max_index F.nan := rfl

/-- Appending a sample to the padded window commutes with the buffer view:
removing the oldest entry of the padded window and appending `x` gives the
padding of the advanced window. -/
theorem nextWin_pad (p : ℕ) (w : List F) (x : F) (hp : 1 ≤ p) (hwlen : w.length ≤ p) :
    (List.replicate (p - w.length) F.neg_inf ++ w).tail ++ [x]
      = List.replicate (p - (nextWin p w x).length) F.neg_inf ++ nextWin p w x ∧
    (nextWin p w x).length ≤ p ∧ 1 ≤ (nextWin p w x).length := by
  unfold nextWin
  by_cases hlt : w.length < p
  · rw [if_pos hlt]
    have h1 : p - w.length = (p - w.length - 1) + 1 := by omega
    have hlen : (w ++ [x]).length = w.length + 1 := by simp
    refine ⟨?_, by simp; omega, by simp⟩
    rw [h1, List.replicate_succ, List.cons_append, List.tail_cons, hlen]
    have h2 : p - (w.length + 1) = p - w.length - 1 := by omega
    rw [h2, List.append_assoc]
  · rw [if_neg hlt]
    have hwp : w.length = p := by omega
    have hlen : (w.tail ++ [x]).length = p := by
      rw [List.length_append, List.length_tail]
      simp
      omega
    refine ⟨?_, le_of_eq hlen, by simp⟩
    rw [hwp, Nat.sub_self, hlen, Nat.sub_self]
    simp only [List.replicate, List.nil_append]

/-- One `next` step preserves the coupling invariant and returns exactly the
full rescan of the advanced logical window. -/
theorem nextM_spec (p : ℕ) (s : Maximum) (w : List F) (x : F)
    (hInv : InvM p s w) (hw : ∀ y ∈ w, y.isNan = false) (hx : x.isNan = false) :
    InvM p (s.next x).1 (nextWin p w x) ∧ (s.next x).2 = rescanMax (nextWin p w x) := by
  obtain ⟨hper, hp1, hwlen, hcur, hmax, hdq, hub⟩ := hInv
  obtain ⟨hpad, hwlen', hwpos⟩ := nextWin_pad p w x hp1 hwlen
  have hvlen : (List.replicate (p - w.length) F.neg_inf ++ w).length = p := by
    rw [List.length_append, List.length_replicate]
    omega
  have hdlen : s.deque.length = p := by rw [hdq, rot_length, hvlen]
  have hd1len : (s.deque.set s.cur_index x).length = p := by
    rw [List.length_set, hdlen]
  have hvmem : ∀ y ∈ List.replicate (p - w.length) F.neg_inf ++ w, y.isNan = false := by
    intro y hy
    rcases List.mem_append.1 hy with h | h
    · rw [List.eq_of_mem_replicate h]; rfl
    · exact hw y h
  have hdmem : ∀ y ∈ s.deque, y.isNan = false := by
    intro y hy
    rw [hdq] at hy
    exact hvmem y (mem_rot.1 hy)
  have hd1mem : ∀ y ∈ s.deque.set s.cur_index x, y.isNan = false := by
    intro y hy
    rcases List.mem_or_eq_of_mem_set hy with h | h
    · exact hdmem y h
    · rw [h]; exact hx
  have hrot1 : s.deque.set s.cur_index x
      = rot (List.replicate (p - (nextWin p w x).length) F.neg_inf ++ nextWin p w x)
          (if s.cur_index + 1 < p then s.cur_index + 1 else 0) := by
    rw [hdq, rot_set _ _ _ (by omega), hvlen, hpad]
  have hd1w : ∀ y ∈ s.deque.set s.cur_index x, y = F.neg_inf ∨ y ∈ nextWin p w x := by
    intro y hy
    rw [hrot1] at hy
    rcases List.mem_append.1 (mem_rot.1 hy) with h | h
    · exact Or.inl (List.eq_of_mem_replicate h)
    · exact Or.inr h
  have hw'd1 : ∀ y ∈ nextWin p w x, y ∈ s.deque.set s.cur_index x := by
    intro y hy
    rw [hrot1]
    exact mem_rot.2 (List.mem_append.2 (Or.inr hy))
  have hmain : (s.next x).1.max_index < p ∧
      ∀ y ∈ s.deque.set s.cur_index x,
        F.fgt y ((s.deque.set s.cur_index x).getD (s.next x).1.max_index F.nan) = false := by
    rw [next_max_index]
    by_cases hA : F.fgt x ((s.deque.set s.cur_index x).getD s.max_index F.nan) = true
    · rw [if_pos hA]
      have hmc : s.max_index ≠ s.cur_index := by
        intro h
        rw [h, getD_set_self s.deque s.cur_index x F.nan (by omega)] at hA
        rw [F.fgt_irrefl] at hA
        exact absurd hA (by simp)
      have hd1m : (s.deque.set s.cur_index x).getD s.max_index F.nan
          = s.deque.getD s.max_index F.nan :=
        getD_set_ne s.deque s.cur_index s.max_index x F.nan hmc
      refine ⟨hcur, ?_⟩
      rw [getD_set_self s.deque s.cur_index x F.nan (by omega)]
      intro y hy
      rcases List.mem_or_eq_of_mem_set hy with h | h
      · cases hyx : F.fgt y x with
        | false => rfl
        | true =>
          have htr : F.fgt y (s.deque.getD s.max_index F.nan) = true :=
            F.fgt_trans hyx (hd1m ▸ hA)
          rw [hub y h] at htr
          exact absurd htr (by simp)
      · rw [h]; exact F.fgt_irrefl x
    · have hA' : F.fgt x ((s.deque.set s.cur_index x).getD s.max_index F.nan) = false := by
        simpa using hA
      rw [if_neg hA]
      by_cases hmc : s.max_index = s.cur_index
      · rw [if_pos hmc]
        refine ⟨?_, find_max_index_ub (s.deque.set s.cur_index x)⟩
        have := find_max_index_lt (s.deque.set s.cur_index x) (by omega)
        omega
      · rw [if_neg hmc]
        have hd1m : (s.deque.set s.cur_index x).getD s.max_index F.nan
            = s.deque.getD s.max_index F.nan :=
          getD_set_ne s.deque s.cur_index s.max_index x F.nan hmc
        refine ⟨hmax, ?_⟩
        rw [hd1m]
        intro y hy
        rcases List.mem_or_eq_of_mem_set hy with h | h
        · exact hub y h
        · rw [h]
          rw [hd1m] at hA'
          exact hA'
  refine ⟨⟨next_period s x ▸ hper, hp1, hwlen', ?_, hmain.1, ?_, ?_⟩, ?_⟩
  · rw [next_cur, hper]
    split <;> omega
  · rw [next_deque, next_cur, hper, hrot1]
  · rw [next_deque]
    exact hmain.2
  · rw [next_out, next_deque]
    have hm2lt : (s.next x).1.max_index < (s.deque.set s.cur_index x).length := by
      rw [hd1len]
      exact hmain.1
    have houtmem : (s.deque.set s.cur_index x).getD (s.next x).1.max_index F.nan
        ∈ s.deque.set s.cur_index x := getD_mem _ _ F.nan hm2lt
    have houtw : (s.deque.set s.cur_index x).getD (s.next x).1.max_index F.nan
        ∈ F.neg_inf :: nextWin p w x := by
      rcases hd1w _ houtmem with h | h
      · rw [h]; exact List.mem_cons_self _ _
      · exact List.mem_cons_of_mem _ h
    refine bufferMax_unique houtw (rescanMax_mem (nextWin p w x)) (hd1mem _ houtmem)
      (rescanMax_not_nan (nextWin p w x)) ?_ (rescanMax_ub (nextWin p w x))
    intro y hy
    exact hmain.2 y (hw'd1 y hy)

/-! ### Running a whole sample stream -/

theorem runM_spec (p : ℕ) : ∀ (xs : List F) (s : Maximum) (w : List F),
    InvM p s w → (∀ y ∈ w, y.isNan = false) → (∀ y ∈ xs, y.isNan = false) →
    s.run xs = specRunMax p w xs := by
  intro xs
  induction xs with
  | nil => intro s w _ _ _; rfl
  | cons x rest ih =>
    intro s w hInv hw hxs
    have hx : x.isNan = false := hxs x (List.mem_cons_self x rest)
    have hrest : ∀ y ∈ rest, y.isNan = false := fun y hy => hxs y (List.mem_cons_of_mem x hy)
    obtain ⟨hInv', hout⟩ := nextM_spec p s w x hInv hw hx
    have hw' : ∀ y ∈ nextWin p w x, y.isNan = false := by
      intro y hy
      unfold nextWin at hy
      split at hy <;> rcases List.mem_append.1 hy with h | h
      · exact hw y h
      · rw [List.mem_singleton.1 h]; exact hx
      · exact hw y (List.mem_of_mem_tail h)
      · rw [List.mem_singleton.1 h]; exact hx
    show (s.next x).2 :: (s.next x).1.run rest
        = rescanMax (nextWin p w x) :: specRunMax p (nextWin p w x) rest
    rw [hout, ih (s.next x).1 (nextWin p w x) hInv' hw' hrest]

theorem lastN_all {n : ℕ} {l : List F} (h : l.length ≤ n) : lastN n l = l := by
  unfold lastN
  rw [Nat.sub_eq_zero_of_le h, List.drop_zero]

theorem lastN_cons {n : ℕ} {y : F} {l : List F} (h : n ≤ l.length) :
    lastN n (y :: l) = lastN n l := by
  unfold lastN
  have hs : (y :: l).length - n = (l.length - n) + 1 := by
    simp only [List.length_cons]
    omega
  rw [hs, List.drop_succ_cons]

theorem nextWin_eq_lastN (p : ℕ) (w : List F) (x : F) (hp : 1 ≤ p) (hwlen : w.length ≤ p) :
    nextWin p w x = lastN (min (w.length + 1) p) (w ++ [x]) := by
  unfold nextWin lastN
  by_cases hlt : w.length < p
  · rw [if_pos hlt]
    have h1 : min (w.length + 1) p = w.length + 1 := by omega
    have h2 : (w ++ [x]).length = w.length + 1 := by simp
    rw [h1, h2, Nat.sub_self, List.drop_zero]
  · rw [if_neg hlt]
    have hwp : w.length = p := by omega
    have h1 : min (w.length + 1) p = p := by omega
    have h2 : (w ++ [x]).length = w.length + 1 := by simp
    rw [h1, h2, hwp, Nat.succ_sub (le_refl p), Nat.sub_self]
    cases w with
    | nil =>
      rw [List.length_nil] at hwp
      omega
    | cons a t => simp

theorem lastN_shift (p : ℕ) (w : List F) (x : F) (r : List F) (hp : 1 ≤ p)
    (hwlen : w.length ≤ p) (k : ℕ) :
    lastN (min ((nextWin p w x).length + (k + 1)) p) (nextWin p w x ++ r)
      = lastN (min (w.length + (k + 2)) p) (w ++ x :: r) := by
  unfold nextWin
  by_cases hlt : w.length < p
  · rw [if_pos hlt]
    have h2 : (w ++ [x]).length = w.length + 1 := by simp
    rw [h2]
    have h3 : w.length + 1 + (k + 1) = w.length + (k + 2) := by omega
    rw [h3, List.append_assoc]
    rfl
  · rw [if_neg hlt]
    have hwp : w.length = p := by omega
    obtain ⟨a, t, rfl⟩ : ∃ a t, w = a :: t := by
      cases w with
      | nil =>
        rw [List.length_nil] at hwp
        omega
      | cons a t => exact ⟨a, t, rfl⟩
    simp only [List.tail_cons]
    have htl : t.length + 1 = p := by
      simp only [List.length_cons] at hwp
      omega
    have h2 : (t ++ [x]).length = p := by
      simp only [List.length_append, List.length_cons, List.length_nil]
      omega
    have hm1 : min ((t ++ [x]).length + (k + 1)) p = p := by rw [h2]; omega
    have hm2 : min ((a :: t).length + (k + 2)) p = p := by
      simp only [List.length_cons]
      omega
    rw [hm1, hm2, List.append_assoc]
    have hca : (a :: t) ++ x :: r = a :: (t ++ x :: r) := rfl
    rw [hca, lastN_cons (by simp; omega)]
    rfl

theorem specRunMax_getD (p : ℕ) (hp : 1 ≤ p) :
    ∀ (xs : List F) (w : List F) (k : ℕ), w.length ≤ p → k < xs.length →
    (specRunMax p w xs).getD k F.nan
      = rescanMax (lastN (min (w.length + (k + 1)) p) (w ++ xs.take (k + 1))) := by
  intro xs
  induction xs with
  | nil =>
    intro w k _ h
    exact absurd h (by simp)
  | cons x rest ih =>
    intro w k hwlen hk
    have hwlen' : (nextWin p w x).length ≤ p := (nextWin_pad p w x hp hwlen).2.1
    cases k with
    | zero =>
      show (rescanMax (nextWin p w x) :: specRunMax p (nextWin p w x) rest).getD 0 F.nan = _
      rw [List.getD_cons_zero]
      have htake : (x :: rest).take (0 + 1) = [x] := rfl
      rw [htake, nextWin_eq_lastN p w x hp hwlen]
    | succ k =>
      show (rescanMax (nextWin p w x) :: specRunMax p (nextWin p w x) rest).getD (k + 1) F.nan = _
      rw [List.getD_cons_succ]
      rw [ih (nextWin p w x) k hwlen' (by simp at hk; omega)]
      have htake : (x :: rest).take (k + 1 + 1) = x :: rest.take (k + 1) := rfl
      rw [htake]
      have hsh := lastN_shift p w x (rest.take (k + 1)) hp hwlen k
      rw [hsh]

/-! ### The invariant at an all-sentinel state -/

theorem InvM_sentinel (p : ℕ) (s : Maximum) (hper : s.period = p) (hp : 1 ≤ p)
    (hcur : s.cur_index < p) (hmax : s.max_index < p)
    (hdq : s.deque = List.replicate p F.neg_inf) :
    InvM p s [] := by
  refine ⟨hper, hp, by simp, hcur, hmax, ?_, ?_⟩
  · rw [hdq]
    unfold rot
    simp only [List.append_nil, List.length_nil, Nat.sub_zero, List.length_replicate,
      List.drop_replicate, List.take_replicate]
    rw [← List.replicate_add]
    congr 1
    omega
  · intro y hy
    rw [hdq] at hy ⊢
    rw [List.eq_of_mem_replicate hy]
    have hg : (List.replicate p F.neg_inf).getD s.max_index F.nan = F.neg_inf := by
      have hm := getD_mem (List.replicate p F.neg_inf) s.max_index F.nan (by simp; omega)
      exact List.eq_of_mem_replicate hm
    rw [hg]
    rfl

theorem maxNew_ok (p : ℕ) (hp : 1 ≤ p) :
    Maximum.new p = Except.ok
      { period := p, max_index := 0, cur_index := 0,
        deque := List.replicate p F.neg_inf } := by
  cases p with
  | zero => omega
  | succ n => rfl

theorem minNew_ok (p : ℕ) (hp : 1 ≤ p) :
    Minimum.new p = Except.ok
      { period := p, min_index := 0, cur_index := 0,
        deque := List.replicate p F.pos_inf } := by
  cases p with
  | zero => omega
  | succ n => rfl

theorem maxRun_model (p : ℕ) (s : Maximum) (xs : List F)
    (hnew : Maximum.new p = Except.ok s) (hxs : ∀ y ∈ xs, y.isNan = false) :
    s.run xs = specRunMax p [] xs := by
  cases p with
  | zero => exact absurd hnew (by simp [Maximum.new])
  | succ n =>
    have hs : s = ⟨n + 1, 0, 0, List.replicate (n + 1) F.neg_inf⟩ := by
      have hok : Maximum.new (n + 1)
          = Except.ok ⟨n + 1, 0, 0, List.replicate (n + 1) F.neg_inf⟩ := rfl
      rw [hok] at hnew
      exact (Except.ok.inj hnew).symm
    subst hs
    exact runM_spec (n + 1) xs _ [] (InvM_sentinel (n + 1) _ rfl (by omega)
      (Nat.succ_pos n) (Nat.succ_pos n) rfl) (by simp) hxs

/-! ### Duality between the two polarities -/

theorem F.neg_neg (a : F) : a.neg.neg = a := by
  cases a <;> simp [F.neg]

theorem F.isNan_neg (a : F) : (F.neg a).isNan = a.isNan := by
  cases a <;> rfl

theorem F.fgt_neg (a b : F) : F.fgt (F.neg a) (F.neg b) = F.flt a b := by
  cases a <;> cases b <;> simp [F.neg, F.fgt, F.flt, neg_lt_neg_iff]

theorem getD_map_neg : ∀ (l : List F) (n : ℕ),
    (l.map F.neg).getD n F.nan = F.neg (l.getD n F.nan)
  | [], _ => rfl
  | _ :: _, 0 => rfl
  | _ :: l, n + 1 => getD_map_neg l n

theorem findAux_sim : ∀ (l : List F) (i : ℕ) (mn : F) (index : ℕ),
    findMinAux l i mn index
      = ((findMaxAux (l.map F.neg) i (F.neg mn) index).1.neg,
         (findMaxAux (l.map F.neg) i (F.neg mn) index).2) := by
  intro l
  induction l with
  | nil =>
    intro i mn index
    simp [findMinAux, findMaxAux, F.neg_neg]
  | cons val rest ih =>
    intro i mn index
    simp only [findMinAux, findMaxAux, List.map_cons]
    rw [F.fgt_neg]
    by_cases h : F.flt val mn = true
    · rw [if_pos h, if_pos h, ih]
    · rw [if_neg h, if_neg h, ih]

theorem next_deque_min (s : Minimum) (x : F) :
    (s.next x).1.deque = s.deque.set s.cur_index x := by
  simp only [Minimum.next, Minimum.step1, Minimum.step2, Minimum.step3]
  split
  · rfl
  split <;> rfl

theorem next_period_min (s : Minimum) (x : F) : (s.next x).1.period = s.period := by
  simp only [Minimum.next, Minimum.step1, Minimum.step2, Minimum.step3]
  split
  · rfl
  split <;> rfl

theorem next_cur_min (s : Minimum) (x : F) :
    (s.next x).1.cur_index = if s.cur_index + 1 < s.period then s.cur_index + 1 else 0 := by
  simp only [Minimum.next, Minimum.step1, Minimum.step2, Minimum.step3]
  split
  · rfl
  split <;> rfl

theorem next_min_index (s : Minimum) (x : F) :
    (s.next x).1.min_index =
      if F.flt x ((s.deque.set s.cur_index x).getD s.min_index F.nan) = true then
        s.cur_index
      else if s.min_index = s.cur_index then
        (findMinAux (s.deque.set s.cur_index x) 0 F.pos_inf 0).2
      else s.min_index := by
  simp only [Minimum.next, Minimum.step1, Minimum.step2, Minimum.step3,
    Minimum.find_min_index, beq_iff_eq]
  split
  · rfl
  split <;> rfl

theorem next_out_min (s : Minimum) (x : F) :
    (s.next x).2 = (s.next x).1.deque.getD (s.next x).1.min_index F.nan := rfl

theorem sim_index (s : Minimum) (x : F) :
    ((mToMax s).next (F.neg x)).1.max_index = (s.next x).1.min_index := by
  rw [next_max_index, next_min_index]
  simp only [mToMax]
  rw [← List.map_set, getD_map_neg, F.fgt_neg]
  by_cases h1 : F.flt x ((s.deque.set s.cur_index x).getD s.min_index F.nan) = true
  · rw [if_pos h1, if_pos h1]
  · rw [if_neg h1, if_neg h1]
    by_cases h2 : s.min_index = s.cur_index
    · rw [if_pos h2, if_pos h2, findAux_sim]
      rfl
    · rw [if_neg h2, if_neg h2]

theorem sim_deque (s : Minimum) (x : F) :
    ((mToMax s).next (F.neg x)).1.deque = ((s.next x).1.deque).map F.neg := by
  rw [next_deque, next_deque_min]
  simp only [mToMax]
  rw [← List.map_set]

theorem next_sim (s : Minimum) (x : F) :
    mToMax (s.next x).1 = ((mToMax s).next (F.neg x)).1 ∧
    ((s.next x).2).neg = ((mToMax s).next (F.neg x)).2 := by
  constructor
  · ext : 1
    · show (s.next x).1.period = ((mToMax s).next (F.neg x)).1.period
      rw [next_period, next_period_min]
      rfl
    · show (s.next x).1.min_index = ((mToMax s).next (F.neg x)).1.max_index
      rw [sim_index]
    · show (s.next x).1.cur_index = ((mToMax s).next (F.neg x)).1.cur_index
      rw [next_cur, next_cur_min]
      rfl
    · show ((s.next x).1.deque).map F.neg = ((mToMax s).next (F.neg x)).1.deque
      rw [sim_deque]
  · rw [next_out, next_out_min, sim_deque, sim_index, getD_map_neg]

theorem run_sim : ∀ (xs : List F) (s : Minimum),
    s.run xs = ((mToMax s).run (xs.map F.neg)).map F.neg := by
  intro xs
  induction xs with
  | nil => intro s; rfl
  | cons x rest ih =>
    intro s
    obtain ⟨hst, hout⟩ := next_sim s x
    show (s.next x).2 :: (s.next x).1.run rest
        = (((mToMax s).next (F.neg x)).2 :: ((mToMax s).next (F.neg x)).1.run
            (rest.map F.neg)).map F.neg
    rw [List.map_cons, ← hout, F.neg_neg, ← hst, ← ih (s.next x).1]

theorem reset_sim (s : Minimum) : mToMax (s.reset) = (mToMax s).reset := by
  ext : 1
  · rfl
  · rfl
  · rfl
  · show ((List.range s.period).foldl (fun d i => d.set i F.pos_inf) s.deque).map F.neg
        = (List.range s.period).foldl (fun d i => d.set i F.neg_inf) (s.deque.map F.neg)
    rw [foldl_set_range, foldl_set_range]
    rw [List.map_append, List.map_replicate, List.map_drop, List.length_map]
    rfl

theorem foldl_fmin_sim : ∀ (l : List F) (a : F),
    l.foldl fmin a = ((l.map F.neg).foldl fmax (F.neg a)).neg := by
  intro l
  induction l with
  | nil => intro a; rw [List.map_nil]; exact (F.neg_neg a).symm
  | cons y t ih =>
    intro a
    simp only [List.foldl_cons, List.map_cons]
    have hfm : fmax (F.neg a) (F.neg y) = F.neg (fmin a y) := by
      unfold fmax fmin
      rw [F.fgt_neg]
      split <;> rfl
    rw [hfm, ← ih (fmin a y)]

theorem rescanMin_sim (l : List F) : rescanMin l = (rescanMax (l.map F.neg)).neg :=
  foldl_fmin_sim l F.pos_inf

theorem nextWin_map_neg (p : ℕ) (w : List F) (x : F) :
    nextWin p (w.map F.neg) (F.neg x) = (nextWin p w x).map F.neg := by
  unfold nextWin
  rw [List.length_map]
  split
  · rw [List.map_append]
    rfl
  · rw [List.map_append, List.map_tail]
    rfl

theorem specRun_sim (p : ℕ) : ∀ (xs w : List F),
    specRunMin p w xs = (specRunMax p (w.map F.neg) (xs.map F.neg)).map F.neg := by
  intro xs
  induction xs with
  | nil => intro w; rfl
  | cons x rest ih =>
    intro w
    show rescanMin (nextWin p w x) :: specRunMin p (nextWin p w x) rest
        = (rescanMax (nextWin p (w.map F.neg) (F.neg x)) ::
            specRunMax p (nextWin p (w.map F.neg) (F.neg x)) (rest.map F.neg)).map F.neg
    rw [List.map_cons, nextWin_map_neg, ← rescanMin_sim, ih (nextWin p w x)]

theorem minRun_model (p : ℕ) (s : Minimum) (xs : List F)
    (hnew : Minimum.new p = Except.ok s) (hxs : ∀ y ∈ xs, y.isNan = false) :
    s.run xs = specRunMin p [] xs := by
  cases p with
  | zero => exact absurd hnew (by simp [Minimum.new])
  | succ n =>
    have hs : s = ⟨n + 1, 0, 0, List.replicate (n + 1) F.pos_inf⟩ := by
      have hok : Minimum.new (n + 1)
          = Except.ok ⟨n + 1, 0, 0, List.replicate (n + 1) F.pos_inf⟩ := rfl
      rw [hok] at hnew
      exact (Except.ok.inj hnew).symm
    subst hs
    rw [run_sim]
    have hmm : mToMax ⟨n + 1, 0, 0, List.replicate (n + 1) F.pos_inf⟩
        = ⟨n + 1, 0, 0, List.replicate (n + 1) F.neg_inf⟩ := by
      unfold mToMax
      rw [List.map_replicate]
      rfl
    rw [hmm]
    have hxs' : ∀ y ∈ xs.map F.neg, y.isNan = false := by
      intro y hy
      obtain ⟨z, hz, rfl⟩ := List.mem_map.1 hy
      rw [F.isNan_neg]
      exact hxs z hz
    rw [maxRun_model (n + 1) _ (xs.map F.neg) (maxNew_ok (n + 1) (by omega)) hxs']
    rw [specRun_sim (n + 1) xs []]
    rfl

/-! ### Structural invariant preservation -/

theorem SInvM_new (p : ℕ) (s : Maximum) (h : Maximum.new p = Except.ok s) : SInvM s := by
  cases p with
  | zero => exact absurd h (by simp [Maximum.new])
  | succ n =>
    have hok : Maximum.new (n + 1)
        = Except.ok ⟨n + 1, 0, 0, List.replicate (n + 1) F.neg_inf⟩ := rfl
    rw [hok] at h
    have hs := (Except.ok.inj h).symm
    subst hs
    exact ⟨Nat.succ_pos n, by simp, Nat.succ_pos n, Nat.succ_pos n⟩

theorem SInvm_new (p : ℕ) (s : Minimum) (h : Minimum.new p = Except.ok s) : SInvm s := by
  cases p with
  | zero => exact absurd h (by simp [Minimum.new])
  | succ n =>
    have hok : Minimum.new (n + 1)
        = Except.ok ⟨n + 1, 0, 0, List.replicate (n + 1) F.pos_inf⟩ := rfl
    rw [hok] at h
    have hs := (Except.ok.inj h).symm
    subst hs
    exact ⟨Nat.succ_pos n, by simp, Nat.succ_pos n, Nat.succ_pos n⟩

theorem find_min_index_lt (l : List F) (hl : 0 < l.length) :
    (findMinAux l 0 F.pos_inf 0).2 < l.length := by
  rw [findAux_sim]
  have h := find_max_index_lt (l.map F.neg) (by rw [List.length_map]; exact hl)
  rw [List.length_map] at h
  exact h

theorem SInvM_next (s : Maximum) (x : F) (h : SInvM s) : SInvM (s.next x).1 := by
  obtain ⟨hp, hlen, hcur, hmax⟩ := h
  refine ⟨?_, ?_, ?_, ?_⟩
  · rw [next_period]; exact hp
  · rw [next_deque, next_period, List.length_set]; exact hlen
  · rw [next_cur, next_period]
    split <;> omega
  · rw [next_max_index, next_period]
    split
    · exact hcur
    split
    · have hb := find_max_index_lt (s.deque.set s.cur_index x)
        (by rw [List.length_set]; omega)
      rw [List.length_set] at hb
      omega
    · exact hmax

theorem SInvm_next (s : Minimum) (x : F) (h : SInvm s) : SInvm (s.next x).1 := by
  obtain ⟨hp, hlen, hcur, hmax⟩ := h
  refine ⟨?_, ?_, ?_, ?_⟩
  · rw [next_period_min]; exact hp
  · rw [next_deque_min, next_period_min, List.length_set]; exact hlen
  · rw [next_cur_min, next_period_min]
    split <;> omega
  · rw [next_min_index, next_period_min]
    split
    · exact hcur
    split
    · have hb := find_min_index_lt (s.deque.set s.cur_index x)
        (by rw [List.length_set]; omega)
      rw [List.length_set] at hb
      omega
    · exact hmax

theorem next_cur_mod (s : Maximum) (x : F) (h : SInvM s) :
    (s.next x).1.cur_index = (s.cur_index + 1) % s.period := by
  obtain ⟨hp, _, hcur, _⟩ := h
  rw [next_cur]
  by_cases hlt : s.cur_index + 1 < s.period
  · rw [if_pos hlt, Nat.mod_eq_of_lt hlt]
  · rw [if_neg hlt]
    have he : s.cur_index + 1 = s.period := by omega
    rw [he, Nat.mod_self]

theorem next_cur_mod_min (s : Minimum) (x : F) (h : SInvm s) :
    (s.next x).1.cur_index = (s.cur_index + 1) % s.period := by
  obtain ⟨hp, _, hcur, _⟩ := h
  rw [next_cur_min]
  by_cases hlt : s.cur_index + 1 < s.period
  · rw [if_pos hlt, Nat.mod_eq_of_lt hlt]
  · rw [if_neg hlt]
    have he : s.cur_index + 1 = s.period := by omega
    rw [he, Nat.mod_self]

theorem SInvM_reset (s : Maximum) (h : SInvM s) : SInvM s.reset := by
  obtain ⟨h1, h2, h3, h4⟩ := maxReset_frame s
  exact ⟨h1 ▸ h.1, by rw [h4, h1]; exact h.2.1, by rw [h2, h1]; exact h.2.2.1,
    by rw [h3, h1]; exact h.2.2.2⟩

theorem SInvm_reset (s : Minimum) (h : SInvm s) : SInvm s.reset := by
  obtain ⟨h1, h2, h3, h4⟩ := minReset_frame s
  exact ⟨h1 ▸ h.1, by rw [h4, h1]; exact h.2.1, by rw [h2, h1]; exact h.2.2.1,
    by rw [h3, h1]; exact h.2.2.2⟩

/-! ### Minimum-side characterizations via duality -/

theorem rescanMin_mem (l : List F) : rescanMin l ∈ F.pos_inf :: l := by
  rw [rescanMin_sim]
  have h := rescanMax_mem (l.map F.neg)
  rcases List.mem_cons.1 h with h1 | h1
  · rw [h1]
    exact List.mem_cons_self _ _
  · obtain ⟨z, hz, hzeq⟩ := List.mem_map.1 h1
    rw [← hzeq, F.neg_neg]
    exact List.mem_cons_of_mem _ hz

theorem rescanMin_lb (l : List F) : ∀ y ∈ l, F.flt y (rescanMin l) = false := by
  intro y hy
  rw [rescanMin_sim]
  have h := rescanMax_ub (l.map F.neg) (F.neg y) (List.mem_map_of_mem F.neg hy)
  show F.fgt ((rescanMax (l.map F.neg)).neg) y = false
  have e : F.fgt ((rescanMax (l.map F.neg)).neg) y
      = F.fgt ((rescanMax (l.map F.neg)).neg) ((F.neg y).neg) := by rw [F.neg_neg]
  rw [e, F.fgt_neg]
  exact h

theorem rescanMin_not_nan (l : List F) : (rescanMin l).isNan = false := by
  rw [rescanMin_sim, F.isNan_neg]
  exact rescanMax_not_nan _

theorem lastN_map_neg (n : ℕ) (l : List F) :
    lastN n (l.map F.neg) = (lastN n l).map F.neg := by
  unfold lastN
  rw [List.length_map, List.map_drop]

theorem specRunMax_winAt (p : ℕ) (hp : 1 ≤ p) (xs : List F) (k : ℕ) (hk : k < xs.length) :
    (specRunMax p [] xs).getD k F.nan = rescanMax (winAt p xs k) := by
  rw [specRunMax_getD p hp xs [] k (by simp) hk]
  unfold winAt
  simp only [List.nil_append, List.length_nil, Nat.zero_add]

theorem specRunMin_winAt (p : ℕ) (hp : 1 ≤ p) (xs : List F) (k : ℕ) (hk : k < xs.length) :
    (specRunMin p [] xs).getD k F.nan = rescanMin (winAt p xs k) := by
  have hsim := specRun_sim p xs []
  rw [List.map_nil] at hsim
  rw [hsim, getD_map_neg]
  rw [specRunMax_winAt p hp (xs.map F.neg) k (by rw [List.length_map]; exact hk)]
  unfold winAt
  rw [← List.map_take, lastN_map_neg, ← rescanMin_sim]

theorem rescanMax_single (x : F) (hx : x.isNan = false) : rescanMax [x] = x := by
  show fmax F.neg_inf x = x
  unfold fmax
  by_cases h : F.fgt x F.neg_inf = true
  · rw [if_pos h]
  · have h' : F.fgt x F.neg_inf = false := by simpa using h
    rcases F.not_fgt_neg_inf_iff.1 h' with h1 | h1
    · rw [if_neg (by simp [h']), h1]
    · rw [h1] at hx
      simp [F.isNan] at hx

theorem rescanMin_single (x : F) (hx : x.isNan = false) : rescanMin [x] = x := by
  rw [rescanMin_sim]
  show (rescanMax [F.neg x]).neg = x
  rw [rescanMax_single (F.neg x) (by rw [F.isNan_neg]; exact hx), F.neg_neg]

/-! ### The rescan returns the least index holding the extremum -/

theorem find_max_index_least (l : List F) (hl : ∀ y ∈ l, y.isNan = false)
    (hlen : 0 < l.length) :
    l.getD (findMaxAux l 0 F.neg_inf 0).2 F.nan = rescanMax l ∧
    ∀ j < (findMaxAux l 0 F.neg_inf 0).2, F.fgt (rescanMax l) (l.getD j F.nan) = true := by
  have hfst : (findMaxAux l 0 F.neg_inf 0).1 = rescanMax l := findMaxAux_fst l 0 F.neg_inf 0
  constructor
  · rcases findMaxAux_pos l 0 F.neg_inf 0 with h | ⟨j, hj, hval, hidx⟩
    · have hr1 : rescanMax l = F.neg_inf := by rw [← hfst, h]
      rw [h]
      show l.getD 0 F.nan = rescanMax l
      rw [hr1]
      have hub := rescanMax_ub l
      rw [hr1] at hub
      cases l with
      | nil => simp at hlen
      | cons a t =>
        have ha := hub a (List.mem_cons_self a t)
        rcases F.not_fgt_neg_inf_iff.1 ha with h1 | h1
        · rw [List.getD_cons_zero, h1]
        · have hna := hl a (List.mem_cons_self a t)
          rw [h1] at hna
          simp [F.isNan] at hna
    · rw [hidx]
      have he : l.getD (0 + j) F.nan = (findMaxAux l 0 F.neg_inf 0).1 := by simpa using hval
      rw [he, hfst]
  · intro j hj
    rcases findMaxAux_least l 0 F.neg_inf 0 rfl hl with ⟨hidx, _⟩ | ⟨_, hstrict, _⟩
    · rw [hidx] at hj
      omega
    · have hs := hstrict j (by omega) hj
      rw [Nat.sub_zero] at hs
      rw [← hfst]
      exact hs

theorem find_min_index_least (l : List F) (hl : ∀ y ∈ l, y.isNan = false)
    (hlen : 0 < l.length) :
    l.getD (findMinAux l 0 F.pos_inf 0).2 F.nan = rescanMin l ∧
    ∀ j < (findMinAux l 0 F.pos_inf 0).2, F.flt (rescanMin l) (l.getD j F.nan) = true := by
  have hmap : ∀ y ∈ l.map F.neg, y.isNan = false := by
    intro y hy
    obtain ⟨z, hz, rfl⟩ := List.mem_map.1 hy
    rw [F.isNan_neg]
    exact hl z hz
  have h := find_max_index_least (l.map F.neg) hmap (by rw [List.length_map]; exact hlen)
  have hidx : (findMinAux l 0 F.pos_inf 0).2 = (findMaxAux (l.map F.neg) 0 F.neg_inf 0).2 := by
    rw [findAux_sim]
    rfl
  constructor
  · rw [hidx]
    have h1 := h.1
    rw [getD_map_neg] at h1
    have h2 := congrArg F.neg h1
    rw [F.neg_neg] at h2
    rw [h2, ← rescanMin_sim]
  · intro j hj
    rw [hidx] at hj
    have h2 := h.2 j hj
    rw [getD_map_neg] at h2
    rw [rescanMin_sim]
    show F.fgt (l.getD j F.nan) ((rescanMax (l.map F.neg)).neg) = true
    have e : F.fgt (l.getD j F.nan) ((rescanMax (l.map F.neg)).neg)
        = F.fgt ((F.neg (l.getD j F.nan)).neg) ((rescanMax (l.map F.neg)).neg) := by
      rw [F.neg_neg]
    rw [e, F.fgt_neg]
    exact h2

/-! ### Degenerate window of size one -/

theorem next_out_period_one (s : Maximum) (x : F) (hper : s.period = 1) (hs : SInvM s) :
    (s.next x).2 = x := by
  obtain ⟨hp, hlen, hcur, hmax⟩ := hs
  have hc0 : s.cur_index = 0 := by omega
  have hm0 : s.max_index = 0 := by omega
  obtain ⟨d0, hd⟩ : ∃ d0, s.deque = [d0] := by
    cases hdq : s.deque with
    | nil =>
      rw [hdq] at hlen
      simp at hlen
      omega
    | cons a t =>
      cases t with
      | nil => exact ⟨a, rfl⟩
      | cons b t2 =>
        rw [hdq] at hlen
        simp at hlen
        omega
  rw [next_out, next_deque, next_max_index, hd, hc0, hm0]
  have hA : ¬(F.fgt x (([d0].set 0 x).getD 0 F.nan) = true) := by
    have he : ([d0].set 0 x).getD 0 F.nan = x := rfl
    rw [he, F.fgt_irrefl]
    simp
  rw [if_neg hA, if_pos rfl]
  have hch : [d0].set 0 x = [x] := rfl
  rw [hch]
  have hidx : (findMaxAux [x] 0 F.neg_inf 0).2 = 0 := by
    simp only [findMaxAux]
    split <;> rfl
  rw [hidx]
  rfl

theorem next_out_period_one_min (s : Minimum) (x : F) (hper : s.period = 1) (hs : SInvm s) :
    (s.next x).2 = x := by
  obtain ⟨hp, hlen, hcur, hmax⟩ := hs
  have hc0 : s.cur_index = 0 := by omega
  have hm0 : s.min_index = 0 := by omega
  obtain ⟨d0, hd⟩ : ∃ d0, s.deque = [d0] := by
    cases hdq : s.deque with
    | nil =>
      rw [hdq] at hlen
      simp at hlen
      omega
    | cons a t =>
      cases t with
      | nil => exact ⟨a, rfl⟩
      | cons b t2 =>
        rw [hdq] at hlen
        simp at hlen
        omega
  rw [next_out_min, next_deque_min, next_min_index, hd, hc0, hm0]
  have hA : ¬(F.flt x (([d0].set 0 x).getD 0 F.nan) = true) := by
    have he : ([d0].set 0 x).getD 0 F.nan = x := rfl
    rw [he]
    show ¬(F.fgt x x = true)
    rw [F.fgt_irrefl]
    simp
  rw [if_neg hA, if_pos rfl]
  have hch : [d0].set 0 x = [x] := rfl
  rw [hch]
  have hidx : (findMinAux [x] 0 F.pos_inf 0).2 = 0 := by
    simp only [findMinAux]
    split <;> rfl
  rw [hidx]
  rfl

/-! ### After a reset the coupling invariant holds with an empty window -/

theorem InvM_after_reset (s : Maximum) (h : SInvM s) : InvM s.period s.reset [] := by
  obtain ⟨h1, h2, h3, h4⟩ := maxReset_frame s
  refine InvM_sentinel s.period s.reset h1 h.1 ?_ ?_ ?_
  · rw [h2]; exact h.2.2.1
  · rw [h3]; exact h.2.2.2
  · exact maxReset_deque s h.2.1

theorem F.flt_irrefl (a : F) : F.flt a a = false := F.fgt_irrefl a

theorem maxReset_run (s : Maximum) (xs : List F) (hS : SInvM s)
    (hxs : ∀ y ∈ xs, y.isNan = false) :
    (s.reset).run xs = specRunMax s.period [] xs :=
  runM_spec s.period xs s.reset [] (InvM_after_reset s hS) (by simp) hxs

theorem minReset_run (t : Minimum) (xs : List F) (hS : SInvm t)
    (hxs : ∀ y ∈ xs, y.isNan = false) :
    (t.reset).run xs = specRunMin t.period [] xs := by
  rw [run_sim, reset_sim]
  have hSM : SInvM (mToMax t) := by
    obtain ⟨h1, h2, h3, h4⟩ := hS
    refine ⟨h1, ?_, h3, h4⟩
    show (t.deque.map F.neg).length = t.period
    rw [List.length_map]
    exact h2
  have hxs' : ∀ y ∈ xs.map F.neg, y.isNan = false := by
    intro y hy
    obtain ⟨z, hz, rfl⟩ := List.mem_map.1 hy
    rw [F.isNan_neg]
    exact hxs z hz
  rw [runM_spec (mToMax t).period (xs.map F.neg) (mToMax t).reset []
    (InvM_after_reset (mToMax t) hSM) (by simp) hxs']
  rw [specRun_sim t.period xs []]
  rfl

theorem specRunMax_single (p : ℕ) (x : F) (hp : 1 ≤ p) :
    specRunMax p [] [x] = [rescanMax [x]] := by
  show rescanMax (nextWin p [] x) :: specRunMax p (nextWin p [] x) [] = [rescanMax [x]]
  have hwin : nextWin p [] x = [x] := by
    unfold nextWin
    rw [if_pos (by simp only [List.length_nil]; omega)]
    rfl
  rw [hwin]
  rfl

theorem specRunMin_single (p : ℕ) (x : F) (hp : 1 ≤ p) :
    specRunMin p [] [x] = [rescanMin [x]] := by
  show rescanMin (nextWin p [] x) :: specRunMin p (nextWin p [] x) [] = [rescanMin [x]]
  have hwin : nextWin p [] x = [x] := by
    unfold nextWin
    rw [if_pos (by simp only [List.length_nil]; omega)]
    rfl
  rw [hwin]
  rfl

theorem rescanMax_mem_of_nonempty (l : List F) (hl : ∀ y ∈ l, y.isNan = false)
    (hne : 0 < l.length) : rescanMax l ∈ l := by
  rcases List.mem_cons.1 (rescanMax_mem l) with h | h
  · cases l with
    | nil => simp at hne
    | cons a t =>
      have ha := rescanMax_ub (a :: t) a (List.mem_cons_self a t)
      rw [h] at ha
      rcases F.not_fgt_neg_inf_iff.1 ha with h1 | h1
      · rw [h, ← h1]
        exact List.mem_cons_self a t
      · have hna := hl a (List.mem_cons_self a t)
        rw [h1] at hna
        simp [F.isNan] at hna
  · exact h

theorem rescanMin_mem_of_nonempty (l : List F) (hl : ∀ y ∈ l, y.isNan = false)
    (hne : 0 < l.length) : rescanMin l ∈ l := by
  rw [rescanMin_sim]
  have hmap : ∀ y ∈ l.map F.neg, y.isNan = false := by
    intro y hy
    obtain ⟨z, hz, rfl⟩ := List.mem_map.1 hy
    rw [F.isNan_neg]
    exact hl z hz
  have h := rescanMax_mem_of_nonempty (l.map F.neg) hmap (by rw [List.length_map]; exact hne)
  obtain ⟨z, hz, hzeq⟩ := List.mem_map.1 h
  rw [← hzeq, F.neg_neg]
  exact hz

theorem winAt_pos (p : ℕ) (xs : List F) (k : ℕ) (hp : 1 ≤ p) (hk : k < xs.length) :
    0 < (winAt p xs k).length := by
  unfold winAt lastN
  rw [List.length_drop, List.length_take]
  omega

theorem winAt_nan (p : ℕ) (xs : List F) (k : ℕ) (hxs : ∀ y ∈ xs, y.isNan = false) :
    ∀ y ∈ winAt p xs k, y.isNan = false := by
  intro y hy
  unfold winAt lastN at hy
  exact hxs y (List.take_subset _ _ (List.drop_subset _ _ hy))

/-! ### Claim theorems -/

/-- C1: for every period `p ≥ 1` and every sequence of non-NaN samples, the
`k`-th call to `next` (0-indexed here) on both the `Maximum` and `Minimum`
trackers returns the true maximum (resp. minimum) of the last `min (k+1) p`
samples — the value a full rescan of that window produces, which is a member
of the window and an upper (resp. lower) bound for it. -/
theorem claim_window_correctness :
    ∀ (p : ℕ) (xs : List F), 1 ≤ p → (∀ y ∈ xs, y.isNan = false) →
    ∀ (sM : Maximum), Maximum.new p = Except.ok sM →
    ∀ (sm : Minimum), Minimum.new p = Except.ok sm →
    ∀ k, k < xs.length →
      (sM.run xs).getD k F.nan = rescanMax (winAt p xs k) ∧
      (sm.run xs).getD k F.nan = rescanMin (winAt p xs k) ∧
      rescanMax (winAt p xs k) ∈ winAt p xs k ∧
      (∀ y ∈ winAt p xs k, F.fgt y (rescanMax (winAt p xs k)) = false) ∧
      rescanMin (winAt p xs k) ∈ winAt p xs k ∧
      (∀ y ∈ winAt p xs k, F.flt y (rescanMin (winAt p xs k)) = false) := by
  intro p xs hp hxs sM hM sm hm k hk
  refine ⟨?_, ?_, ?_, rescanMax_ub _, ?_, rescanMin_lb _⟩
  · rw [maxRun_model p sM xs hM hxs]
    exact specRunMax_winAt p hp xs k hk
  · rw [minRun_model p sm xs hm hxs]
    exact specRunMin_winAt p hp xs k hk
  · exact rescanMax_mem_of_nonempty _ (winAt_nan p xs k hxs) (winAt_pos p xs k hp hk)
  · exact rescanMin_mem_of_nonempty _ (winAt_nan p xs k hxs) (winAt_pos p xs k hp hk)

/-- Witness for C1 at the worked example of the spec: period 3, samples
`7, 5, 4, 4, 8`; the fourth output (index 3) is the window maximum `5`. -/
theorem claim_window_correctness_witness :
    1 ≤ 3 ∧
    (((⟨3, 0, 0, List.replicate 3 F.neg_inf⟩ : Maximum).run
        [F.finite 7, F.finite 5, F.finite 4, F.finite 4, F.finite 8]).getD 3 F.nan
      = rescanMax (winAt 3 [F.finite 7, F.finite 5, F.finite 4, F.finite 4, F.finite 8] 3)) ∧
    rescanMax (winAt 3 [F.finite 7, F.finite 5, F.finite 4, F.finite 4, F.finite 8] 3)
      = F.finite 5 :=
  ⟨by omega,
   (claim_window_correctness 3 [F.finite 7, F.finite 5, F.finite 4, F.finite 4, F.finite 8]
      (by omega) (by decide) ⟨3, 0, 0, List.replicate 3 F.neg_inf⟩ rfl
      ⟨3, 0, 0, List.replicate 3 F.pos_inf⟩ rfl 3 (by decide)).1,
   by decide⟩

/-- C2 is falsified as stated: after one `next`, `reset` leaves the cursor at
1, not 0 (and after two samples it leaves the extremum index at 1, not 0). -/
theorem claim_reset_indices_counterexample :
    Maximum.new 2 = Except.ok (⟨2, 0, 0, List.replicate 2 F.neg_inf⟩ : Maximum) ∧
    ((((⟨2, 0, 0, List.replicate 2 F.neg_inf⟩ : Maximum).next (F.finite 1)).1).reset).cur_index
      = 1 ∧
    (((((⟨2, 0, 0, List.replicate 2 F.neg_inf⟩ : Maximum).next (F.finite 1)).1.next
        (F.finite 2)).1).reset).max_index = 1 ∧
    (1 : ℕ) ≠ 0 :=
  ⟨rfl, by decide, by decide, by decide⟩

/-- C2 (amended): immediately after `reset()` every buffer slot holds the
sentinel (negative infinity for `Maximum`, positive infinity for `Minimum`),
while the cursor and the extremum index keep the values they had before the
call (they are not reset to 0). -/
theorem claim_reset_state :
    (∀ s : Maximum, s.deque.length = s.period →
      (s.reset).deque = List.replicate s.period F.neg_inf ∧
      (s.reset).cur_index = s.cur_index ∧ (s.reset).max_index = s.max_index ∧
      (s.reset).period = s.period) ∧
    (∀ t : Minimum, t.deque.length = t.period →
      (t.reset).deque = List.replicate t.period F.pos_inf ∧
      (t.reset).cur_index = t.cur_index ∧ (t.reset).min_index = t.min_index ∧
      (t.reset).period = t.period) :=
  ⟨fun s h => ⟨maxReset_deque s h, rfl, rfl, rfl⟩,
   fun t h => ⟨minReset_deque t h, rfl, rfl, rfl⟩⟩

/-- Witness for the amended C2 at a concrete mid-stream state. -/
theorem claim_reset_state_witness :
    ((⟨2, 1, 1, [F.finite 3, F.finite 4]⟩ : Maximum).reset).deque
      = List.replicate 2 F.neg_inf ∧
    ((⟨2, 1, 1, [F.finite 3, F.finite 4]⟩ : Maximum).reset).cur_index = 1 ∧
    ((⟨2, 1, 1, [F.finite 3, F.finite 4]⟩ : Maximum).reset).max_index = 1 :=
  ⟨(claim_reset_state.1 ⟨2, 1, 1, [F.finite 3, F.finite 4]⟩ (by decide)).1,
   (claim_reset_state.1 ⟨2, 1, 1, [F.finite 3, F.finite 4]⟩ (by decide)).2.1,
   (claim_reset_state.1 ⟨2, 1, 1, [F.finite 3, F.finite 4]⟩ (by decide)).2.2.1⟩

/-- C3 is falsified as stated: on the update sequence `[NaN]`, a tracker that
ingested `1.0` and was reset returns negative infinity, while a freshly
constructed tracker of the same period returns NaN. -/
theorem claim_reset_equiv_counterexample :
    Maximum.new 2 = Except.ok (⟨2, 0, 0, List.replicate 2 F.neg_inf⟩ : Maximum) ∧
    (((((⟨2, 0, 0, List.replicate 2 F.neg_inf⟩ : Maximum).next (F.finite 1)).1).reset).next
        F.nan).2 = F.neg_inf ∧
    ((⟨2, 0, 0, List.replicate 2 F.neg_inf⟩ : Maximum).next F.nan).2 = F.nan ∧
    F.neg_inf ≠ F.nan :=
  ⟨rfl, by decide, by decide, by decide⟩

/-- C3 (amended): after `reset()`, the tracker produces exactly the same
outputs as a freshly constructed tracker of the same period on every
subsequent sequence of non-NaN updates; in particular the first non-NaN
update after `reset()` returns exactly the input value (NaN update sequences
can distinguish the two states, see the counterexample). -/
theorem claim_reset_equiv :
    (∀ (s : Maximum) (sf : Maximum) (xs : List F), SInvM s →
      Maximum.new s.period = Except.ok sf → (∀ y ∈ xs, y.isNan = false) →
      (s.reset).run xs = sf.run xs) ∧
    (∀ (s : Maximum) (x : F), SInvM s → x.isNan = false → ((s.reset).next x).2 = x) ∧
    (∀ (t : Minimum) (tf : Minimum) (xs : List F), SInvm t →
      Minimum.new t.period = Except.ok tf → (∀ y ∈ xs, y.isNan = false) →
      (t.reset).run xs = tf.run xs) ∧
    (∀ (t : Minimum) (x : F), SInvm t → x.isNan = false → ((t.reset).next x).2 = x) := by
  refine ⟨?_, ?_, ?_, ?_⟩
  · intro s sf xs hS hnew hxs
    rw [maxReset_run s xs hS hxs, maxRun_model s.period sf xs hnew hxs]
  · intro s x hS hx
    have hx1 : ∀ y ∈ [x], y.isNan = false := by
      intro y hy
      rw [List.mem_singleton.1 hy]
      exact hx
    have h1 : (s.reset).run [x] = [rescanMax [x]] := by
      rw [maxReset_run s [x] hS hx1, specRunMax_single s.period x hS.1]
    have h3 : (s.reset).run [x] = [((s.reset).next x).2] := rfl
    have h4 : [((s.reset).next x).2] = [rescanMax [x]] := h3.symm.trans h1
    have h5 := congrArg (fun l => l.headD F.nan) h4
    simp only [List.headD_cons] at h5
    rw [h5, rescanMax_single x hx]
  · intro t tf xs hS hnew hxs
    rw [minReset_run t xs hS hxs, minRun_model t.period tf xs hnew hxs]
  · intro t x hS hx
    have hx1 : ∀ y ∈ [x], y.isNan = false := by
      intro y hy
      rw [List.mem_singleton.1 hy]
      exact hx
    have h1 : (t.reset).run [x] = [rescanMin [x]] := by
      rw [minReset_run t [x] hS hx1, specRunMin_single t.period x hS.1]
    have h3 : (t.reset).run [x] = [((t.reset).next x).2] := rfl
    have h4 : [((t.reset).next x).2] = [rescanMin [x]] := h3.symm.trans h1
    have h5 := congrArg (fun l => l.headD F.nan) h4
    simp only [List.headD_cons] at h5
    rw [h5, rescanMin_single x hx]

/-- Witness for the amended C3: a reset mid-stream tracker with period 2
returns exactly the next input `7`. -/
theorem claim_reset_equiv_witness :
    (((⟨2, 0, 1, [F.finite 9, F.neg_inf]⟩ : Maximum).reset).next (F.finite 7)).2
      = F.finite 7 :=
  claim_reset_equiv.2.1 ⟨2, 0, 1, [F.finite 9, F.neg_inf]⟩ (F.finite 7)
    ⟨by decide, by decide, by decide, by decide⟩ (by decide)

/-- C4 is falsified as stated: a NaN first sample is returned by `next` on
both trackers (the rescan leaves the extremum index at the NaN slot). -/
theorem claim_nan_never_returned_counterexample :
    Maximum.new 1 = Except.ok (⟨1, 0, 0, List.replicate 1 F.neg_inf⟩ : Maximum) ∧
    ((⟨1, 0, 0, List.replicate 1 F.neg_inf⟩ : Maximum).next F.nan).2 = F.nan ∧
    Minimum.new 1 = Except.ok (⟨1, 0, 0, List.replicate 1 F.pos_inf⟩ : Minimum) ∧
    ((⟨1, 0, 0, List.replicate 1 F.pos_inf⟩ : Minimum).next F.nan).2 = F.nan ∧
    (F.nan).isNan = true :=
  ⟨rfl, by decide, rfl, by decide, rfl⟩

/-- C4 (amended): every comparison against NaN is false, so a NaN sample can
never win the extremum comparison of step (a) nor any comparison of the
rescan; nevertheless `update` can return NaN, because the rescan can leave
the extremum index resting on a NaN slot (e.g. when the first sample is NaN). -/
theorem claim_nan_comparisons :
    (∀ x : F, F.fgt x F.nan = false ∧ F.fgt F.nan x = false ∧
      F.flt x F.nan = false ∧ F.flt F.nan x = false) ∧
    ((⟨1, 0, 0, List.replicate 1 F.neg_inf⟩ : Maximum).next F.nan).2 = F.nan := by
  constructor
  · intro x
    exact ⟨F.fgt_nan_right x, F.fgt_nan_left x, F.fgt_nan_left x, F.fgt_nan_right x⟩
  · decide

/-- C5: `new 0` fails with `InvalidParameter` and produces no tracker;
`new p` succeeds for every `p ≥ 1` with the documented initial state; and
`next`/`reset` (total functions in this model) perform only in-bounds buffer
accesses on well-formed states, for arbitrary inputs including NaN. -/
theorem claim_validation_totality :
    Maximum.new 0 = Except.error TaError.InvalidParameter ∧
    Minimum.new 0 = Except.error TaError.InvalidParameter ∧
    (∀ p : ℕ, 1 ≤ p → Maximum.new p
      = Except.ok ⟨p, 0, 0, List.replicate p F.neg_inf⟩) ∧
    (∀ p : ℕ, 1 ≤ p → Minimum.new p
      = Except.ok ⟨p, 0, 0, List.replicate p F.pos_inf⟩) ∧
    (∀ (s : Maximum) (x : F), SInvM s →
      s.cur_index < s.deque.length ∧ s.max_index < s.deque.length ∧
      (s.step1 x).find_max_index < s.deque.length) ∧
    (∀ (t : Minimum) (x : F), SInvm t →
      t.cur_index < t.deque.length ∧ t.min_index < t.deque.length ∧
      (t.step1 x).find_min_index < t.deque.length) := by
  refine ⟨rfl, rfl, fun p hp => maxNew_ok p hp, fun p hp => minNew_ok p hp, ?_, ?_⟩
  · intro s x hS
    obtain ⟨hp, hlen, hcur, hmax⟩ := hS
    refine ⟨by omega, by omega, ?_⟩
    have h := find_max_index_lt (s.deque.set s.cur_index x)
      (by rw [List.length_set]; omega)
    rw [List.length_set] at h
    exact h
  · intro t x hS
    obtain ⟨hp, hlen, hcur, hmax⟩ := hS
    refine ⟨by omega, by omega, ?_⟩
    have h := find_min_index_lt (t.deque.set t.cur_index x)
      (by rw [List.length_set]; omega)
    rw [List.length_set] at h
    exact h

/-- Witness for C5 at the default period 14 and a concrete state fed NaN. -/
theorem claim_validation_totality_witness :
    Maximum.new 14 = Except.ok (⟨14, 0, 0, List.replicate 14 F.neg_inf⟩ : Maximum) ∧
    ((⟨2, 0, 0, List.replicate 2 F.neg_inf⟩ : Maximum).step1 F.nan).find_max_index < 2 :=
  ⟨claim_validation_totality.2.2.1 14 (by omega),
   (claim_validation_totality.2.2.2.2.1 ⟨2, 0, 0, List.replicate 2 F.neg_inf⟩ F.nan
      ⟨by decide, by decide, by decide, by decide⟩).2.2⟩

/-- C6: construction establishes the structural invariant (positive period,
buffer of `period` slots, both indices in `[0, period)`); `next` (for any
input, NaN included) and `reset` preserve it; and the cursor advances
circularly, `cur_index` becoming `(cur_index + 1) % period`. -/
theorem claim_indices_in_range :
    (∀ (p : ℕ) (s : Maximum), Maximum.new p = Except.ok s → SInvM s) ∧
    (∀ (s : Maximum) (x : F), SInvM s → SInvM (s.next x).1 ∧
      (s.next x).1.cur_index = (s.cur_index + 1) % s.period ∧
      (s.next x).1.period = s.period) ∧
    (∀ s : Maximum, SInvM s → SInvM s.reset) ∧
    (∀ (p : ℕ) (t : Minimum), Minimum.new p = Except.ok t → SInvm t) ∧
    (∀ (t : Minimum) (x : F), SInvm t → SInvm (t.next x).1 ∧
      (t.next x).1.cur_index = (t.cur_index + 1) % t.period ∧
      (t.next x).1.period = t.period) ∧
    (∀ t : Minimum, SInvm t → SInvm t.reset) :=
  ⟨SInvM_new,
   fun s x h => ⟨SInvM_next s x h, next_cur_mod s x h, next_period s x⟩,
   SInvM_reset,
   SInvm_new,
   fun t x h => ⟨SInvm_next t x h, next_cur_mod_min t x h, next_period_min t x⟩,
   SInvm_reset⟩

/-- Witness for C6: a period-3 state with cursor 2 wraps to 0 on the next
update and keeps the invariant. -/
theorem claim_indices_in_range_witness :
    SInvM ((⟨3, 1, 2, [F.finite 1, F.finite 2, F.finite 3]⟩ : Maximum).next F.nan).1 ∧
    ((⟨3, 1, 2, [F.finite 1, F.finite 2, F.finite 3]⟩ : Maximum).next F.nan).1.cur_index
      = (2 + 1) % 3 :=
  ⟨(claim_indices_in_range.2.1 ⟨3, 1, 2, [F.finite 1, F.finite 2, F.finite 3]⟩ F.nan
      ⟨by decide, by decide, by decide, by decide⟩).1,
   (claim_indices_in_range.2.1 ⟨3, 1, 2, [F.finite 1, F.finite 2, F.finite 3]⟩ F.nan
      ⟨by decide, by decide, by decide, by decide⟩).2.1⟩

/-- C7: with `period = 1`, every call to `next` returns exactly the input
just supplied, on both trackers (including NaN and infinite inputs). -/
theorem claim_period_one :
    (∀ (s : Maximum) (x : F), s.period = 1 → SInvM s → (s.next x).2 = x) ∧
    (∀ (t : Minimum) (x : F), t.period = 1 → SInvm t → (t.next x).2 = x) :=
  ⟨fun s x h1 h2 => next_out_period_one s x h1 h2,
   fun t x h1 h2 => next_out_period_one_min t x h1 h2⟩

/-- Witness for C7 at period 1 with a negative input. -/
theorem claim_period_one_witness :
    ((⟨1, 0, 0, [F.finite 2]⟩ : Maximum).next (F.finite (-5))).2 = F.finite (-5) :=
  claim_period_one.1 ⟨1, 0, 0, [F.finite 2]⟩ (F.finite (-5)) rfl
    ⟨by decide, by decide, by decide, by decide⟩

/-- C8 is falsified as stated for buffers containing NaN: the reachable
buffer `[NaN, -inf]` has the unique maximum `-inf` at index 1 only, but
`find_max_index` returns 0, whose slot does not hold the maximum. -/
theorem claim_tie_lowest_index_counterexample :
    Maximum.new 2 = Except.ok (⟨2, 0, 0, List.replicate 2 F.neg_inf⟩ : Maximum) ∧
    ((⟨2, 0, 0, List.replicate 2 F.neg_inf⟩ : Maximum).next F.nan).1.deque
      = [F.nan, F.neg_inf] ∧
    ((⟨2, 0, 0, List.replicate 2 F.neg_inf⟩ : Maximum).next F.nan).1.find_max_index = 0 ∧
    isBufferMax [F.nan, F.neg_inf] F.neg_inf ∧
    (∀ m : F, isBufferMax [F.nan, F.neg_inf] m → m = F.neg_inf) ∧
    [F.nan, F.neg_inf].getD 0 F.nan ≠ F.neg_inf := by
  refine ⟨rfl, by decide, by decide, ⟨?_, rfl, ?_⟩, ?_, by decide⟩
  · exact List.mem_cons_of_mem _ (List.mem_singleton.2 rfl)
  · intro x hx
    rcases List.mem_cons.1 hx with h | h
    · rw [h]; rfl
    · rw [List.mem_singleton.1 h]; rfl
  · intro m hm
    obtain ⟨hmem, hnan, _⟩ := hm
    rcases List.mem_cons.1 hmem with h | h
    · rw [h] at hnan
      simp [F.isNan] at hnan
    · exact List.mem_singleton.1 h

/-- C8 (amended): for every buffer of non-NaN values, `find_max_index`
(resp. `find_min_index`) returns the smallest index at which the buffer's
maximum (resp. minimum) — the value of the forward rescan — occurs: the
returned slot holds the rescan value and no earlier slot does. -/
theorem claim_tie_lowest_index :
    (∀ s : Maximum, (∀ y ∈ s.deque, y.isNan = false) → 0 < s.deque.length →
      s.deque.getD s.find_max_index F.nan = rescanMax s.deque ∧
      ∀ j < s.find_max_index, s.deque.getD j F.nan ≠ rescanMax s.deque) ∧
    (∀ t : Minimum, (∀ y ∈ t.deque, y.isNan = false) → 0 < t.deque.length →
      t.deque.getD t.find_min_index F.nan = rescanMin t.deque ∧
      ∀ j < t.find_min_index, t.deque.getD j F.nan ≠ rescanMin t.deque) := by
  constructor
  · intro s hnan hlen
    obtain ⟨h1, h2⟩ := find_max_index_least s.deque hnan hlen
    refine ⟨h1, ?_⟩
    intro j hj heq
    have hgt := h2 j hj
    rw [heq, F.fgt_irrefl] at hgt
    exact absurd hgt (by simp)
  · intro t hnan hlen
    obtain ⟨h1, h2⟩ := find_min_index_least t.deque hnan hlen
    refine ⟨h1, ?_⟩
    intro j hj heq
    have hlt := h2 j hj
    rw [heq, F.flt_irrefl] at hlt
    exact absurd hlt (by simp)

/-- Witness for the amended C8: in the buffer `[2, 7, 7]` the tied maximum 7
is reported at its first occurrence, index 1. -/
theorem claim_tie_lowest_index_witness :
    (⟨3, 0, 0, [F.finite 2, F.finite 7, F.finite 7]⟩ : Maximum).find_max_index = 1 ∧
    (⟨3, 0, 0, [F.finite 2, F.finite 7, F.finite 7]⟩ : Maximum).deque.getD
        (⟨3, 0, 0, [F.finite 2, F.finite 7, F.finite 7]⟩ : Maximum).find_max_index F.nan
      = rescanMax (⟨3, 0, 0, [F.finite 2, F.finite 7, F.finite 7]⟩ : Maximum).deque :=
  ⟨by decide,
   (claim_tie_lowest_index.1 ⟨3, 0, 0, [F.finite 2, F.finite 7, F.finite 7]⟩
      (by decide) (by decide)).1⟩

/-- C9: `reset()` modifies only the buffer contents — period, cursor and
extremum index hold exactly their prior values — and (when the buffer has
`period` slots, as in every reachable state) every slot holds the sentinel. -/
theorem claim_reset_frame_only :
    (∀ s : Maximum, (s.reset).period = s.period ∧ (s.reset).cur_index = s.cur_index ∧
      (s.reset).max_index = s.max_index ∧
      (s.deque.length = s.period → (s.reset).deque = List.replicate s.period F.neg_inf)) ∧
    (∀ t : Minimum, (t.reset).period = t.period ∧ (t.reset).cur_index = t.cur_index ∧
      (t.reset).min_index = t.min_index ∧
      (t.deque.length = t.period → (t.reset).deque = List.replicate t.period F.pos_inf)) :=
  ⟨fun s => ⟨rfl, rfl, rfl, fun h => maxReset_deque s h⟩,
   fun t => ⟨rfl, rfl, rfl, fun h => minReset_deque t h⟩⟩

/-- Witness for C9 at a concrete state (cursor 0, extremum index 1). -/
theorem claim_reset_frame_only_witness :
    ((⟨2, 1, 0, [F.finite 5, F.nan]⟩ : Maximum).reset).cur_index = 0 ∧
    ((⟨2, 1, 0, [F.finite 5, F.nan]⟩ : Maximum).reset).max_index = 1 ∧
    ((⟨2, 1, 0, [F.finite 5, F.nan]⟩ : Maximum).reset).deque
      = List.replicate 2 F.neg_inf :=
  ⟨(claim_reset_frame_only.1 ⟨2, 1, 0, [F.finite 5, F.nan]⟩).2.1,
   (claim_reset_frame_only.1 ⟨2, 1, 0, [F.finite 5, F.nan]⟩).2.2.1,
   (claim_reset_frame_only.1 ⟨2, 1, 0, [F.finite 5, F.nan]⟩).2.2.2 (by decide)⟩

/-- C10: the two polarities are exact duals — the outputs of the `Minimum`
tracker on `xs` are the element-wise negation of the outputs of the `Maximum`
tracker of the same period on the element-wise negation of `xs`. -/
theorem claim_duality :
    ∀ (p : ℕ) (xs : List F) (sm : Minimum) (sM : Maximum), 1 ≤ p →
      Minimum.new p = Except.ok sm → Maximum.new p = Except.ok sM →
      sm.run xs = (sM.run (xs.map F.neg)).map F.neg := by
  intro p xs sm sM hp hm hM
  cases p with
  | zero => omega
  | succ n =>
    have hsm : sm = ⟨n + 1, 0, 0, List.replicate (n + 1) F.pos_inf⟩ := by
      have hok : Minimum.new (n + 1)
          = Except.ok ⟨n + 1, 0, 0, List.replicate (n + 1) F.pos_inf⟩ := rfl
      rw [hok] at hm
      exact (Except.ok.inj hm).symm
    have hsM : sM = ⟨n + 1, 0, 0, List.replicate (n + 1) F.neg_inf⟩ := by
      have hok : Maximum.new (n + 1)
          = Except.ok ⟨n + 1, 0, 0, List.replicate (n + 1) F.neg_inf⟩ := rfl
      rw [hok] at hM
      exact (Except.ok.inj hM).symm
    subst hsm
    subst hsM
    rw [run_sim]
    have hmm2 : mToMax ⟨n + 1, 0, 0, List.replicate (n + 1) F.pos_inf⟩
        = ⟨n + 1, 0, 0, List.replicate (n + 1) F.neg_inf⟩ := by
      unfold mToMax
      rw [List.map_replicate]
      rfl
    rw [hmm2]

/-- Witness for C10 at period 2 on a short concrete stream. -/
theorem claim_duality_witness :
    (⟨2, 0, 0, List.replicate 2 F.pos_inf⟩ : Minimum).run
        [F.finite 1, F.finite (-3), F.finite 2]
      = (((⟨2, 0, 0, List.replicate 2 F.neg_inf⟩ : Maximum).run
          ([F.finite 1, F.finite (-3), F.finite 2].map F.neg)).map F.neg) :=
  claim_duality 2 [F.finite 1, F.finite (-3), F.finite 2] _ _ (by omega) rfl rfl
